import Mathlib

/-!
# Efron-style nontransitive dice search (`efrons.cc`)

A shallow embedding of the program: the die generator (`AddFace`, `GenerateDice`),
the decoder (`DecodeDie`), the odds calculator (`Odds`), the key packer
(`Quadruple`) and the four-level search loop of `main`.

Conventions of the embedding:
* `std::int64_t` values are `Int`; a multiplication is followed by `wrap64`,
  the two's-complement reduction to 64 bits.
* `std::set<std::int64_t>` is a strictly increasing `List Int`.
* `std::unordered_set<std::int64_t>` is a duplicate-free `List Int`; only
  membership is observed by the program.
* A failed `assert` and a loop that never exits are the two faults of `Fault`.

The definitions come first: the program, then the notions the statements are written in.
The theorems follow: `Odds` as pair counts, the generated set as the products of six label
primes, the decoder, the size of the universe, the nested loops of `main` as one pass
`flatSearch` over the tuples in lexicographic order, the invariant of that pass, and the
dice of `main` as an explicit list.
-/

namespace Efrons

/-! ## Constants -/

/-- The constant `kNumberOfFaces`. -/
def kNumberOfFaces : Nat := 6

/-- The constant `kNumberOfLabels`. -/
def kNumberOfLabels : Nat := 7

/-- The table `kPrime[]`. -/
def kPrimeTable : List Int :=
  [2, 3, 5, 7, 11, 13, 17, 19, 23, 29,
   31, 37, 41, 43, 47, 53, 59, 61, 67, 71]

/-- The read `kPrime[i]`; the program only reads indices below `kNumberOfLabels`. -/
def kPrime (i : Nat) : Int := kPrimeTable.getD i 0

/-- Reduction of an integer to the range of `std::int64_t` (two's complement). -/
def wrap64 (x : Int) : Int :=
  (x + 9223372036854775808) % 18446744073709551616 - 9223372036854775808

/-- The two ways a run can fail to return. -/
inductive Fault where
  | assertion
  | nontermination
  deriving DecidableEq, Repr

/-! ## Die generator -/

/-- The call `std::set<std::int64_t>::insert`, on a strictly increasing list. -/
def setInsert (x : Int) : List Int → List Int
  | [] => [x]
  | y :: ys =>
    if x < y then x :: y :: ys
    else if x = y then y :: ys
    else y :: setInsert x ys

/-- The function `AddFace`: the new set holds `n * kPrime[i]` for every `n` of the old
set and every label `i`. -/
def AddFace (s : List Int) : List Int :=
  s.foldl (fun tmp n =>
    (List.range kNumberOfLabels).foldl
      (fun tmp i => setInsert (wrap64 (n * kPrime i)) tmp) tmp) []

/-- The function `GenerateDice`: insert `1`, then `kNumberOfFaces` rounds of `AddFace`. -/
def GenerateDice (s : List Int) : List Int :=
  (List.range kNumberOfFaces).foldl (fun s _ => AddFace s) (setInsert 1 s)

/-! ## Dice and the decoder -/

/-- The struct `Die`: an array `int v[kNumberOfFaces]`. -/
structure Die where
  v : List Int
  size : v.length = kNumberOfFaces
  deriving DecidableEq

/-- The array after `memset(d.v, 0, sizeof(d.v))`. -/
def Die.zero : Die := ⟨List.replicate kNumberOfFaces 0, by simp⟩

/-- The write `d.v[k] = x`. A write at `k ≥ kNumberOfFaces` is out of bounds in the
program; here it leaves the array unchanged, and the counter `k` of the decoder
records that it happened. -/
def Die.set (d : Die) (k : Nat) (x : Int) : Die :=
  ⟨d.v.set k x, by simp [d.size]⟩

/-- The local variables `d`, `k`, `n` of `DecodeDie`. -/
structure DecodeState where
  d : Die
  k : Nat
  n : Int
  deriving DecidableEq

/-- The `for` loop of `DecodeDie` with its `goto re`, started at label index `i`.
One unit of fuel is one pass through the loop body; `none` is an exhausted fuel. -/
def decodeLoop : Nat → Nat → DecodeState → Option DecodeState
  | 0, _, _ => none
  | fuel + 1, i, st =>
    if i < kNumberOfLabels then
      if Int.tmod st.n (kPrime i) = 0 then
        let st1 : DecodeState :=
          { d := st.d.set st.k (i : Int), k := st.k + 1, n := Int.tdiv st.n (kPrime i) }
        if st1.n = 1 then some st1 else decodeLoop fuel i st1
      else decodeLoop fuel (i + 1) st
    else some st

/-- Fuel for `decodeLoop`: every pass either divides `n` by a prime or advances `i`. -/
def decodeFuel (n : Int) : Nat := n.natAbs + kNumberOfLabels + 1

/-- The function `DecodeDie`, with its two assertions. -/
def DecodeDie (n : Int) : Except Fault Die :=
  match decodeLoop (decodeFuel n) 0 { d := Die.zero, k := 0, n := n } with
  | none => .error .nontermination
  | some st =>
    if st.k = kNumberOfFaces then
      if st.n = 1 then .ok st.d else .error .assertion
    else .error .assertion

/-! ## Odds -/

/-- The function `Odds`: the pair `(*w1, *w2)` it writes. -/
def Odds (d1 d2 : Die) : Int × Int :=
  (List.range kNumberOfFaces).foldl (fun acc i =>
    (List.range kNumberOfFaces).foldl (fun acc j =>
      if d1.v.getD i 0 < d2.v.getD j 0 then (acc.1, acc.2 + 1)
      else if d1.v.getD i 0 > d2.v.getD j 0 then (acc.1 + 1, acc.2)
      else acc) acc) (0, 0)

/-! ## Quadruple key -/

/-- The function `Quadruple`: four range assertions, then
`(a<<48)|(d<<32)|(c<<16)|(d)` as a 64-bit signed value. -/
def Quadruple (a b c d : Int) : Except Fault Int :=
  if 0 ≤ a ∧ a < 0x10000 then
    if 0 ≤ b ∧ b < 0x10000 then
      if 0 ≤ c ∧ c < 0x10000 then
        if 0 ≤ d ∧ d < 0x10000 then
          .ok (wrap64 (((a.toNat <<< 48) ||| (d.toNat <<< 32) ||| (c.toNat <<< 16)
            ||| d.toNat : Nat) : Int))
        else .error .assertion
      else .error .assertion
    else .error .assertion
  else .error .assertion

/-! ## The search of `main` -/

/-- The observable state of the search: the set `found` and the tuples printed so far
(the counter `i` is the length of `out`). -/
structure SearchState where
  found : List Int
  out : List (Nat × Nat × Nat × Nat)
  deriving DecidableEq

/-- The call `found.insert(q)` whose result is ignored. -/
def foundInsert (q : Int) (found : List Int) : List Int :=
  if q ∈ found then found else q :: found

/-- The read `dice[a]`. -/
def dieAt (dice : List Die) (a : Nat) : Die := dice.getD a Die.zero

/-- Lines 184-191 of `main`: the key test, the three rotated keys and the print. -/
def report (a b c d : Nat) (st : SearchState) : Except Fault SearchState := do
  let q ← Quadruple a b c d
  if q ∈ st.found then pure st
  else
    let q1 ← Quadruple b c d a
    let q2 ← Quadruple c d a b
    let q3 ← Quadruple d a b c
    pure { found := foundInsert q3 (foundInsert q2 (foundInsert q1 (q :: st.found))),
           out := st.out ++ [(a, b, c, d)] }

/-- The body of the loop over `d` (lines 166-191); `w10 w20 w11 w21` are
`w1[0] w2[0] w1[1] w2[1]`. -/
def loopD (dice : List Die) (a b c : Nat) (w10 w20 w11 w21 : Int)
    (st : SearchState) (d : Nat) : Except Fault SearchState :=
  if a = d ∨ b = d ∨ c = d then pure st
  else
    let w2 := Odds (dieAt dice c) (dieAt dice d)
    if w2.1 = 0 ∨ w2.2 = 0 then pure st
    else if w2.1 ≤ w2.2 then pure st
    else if w11 * w2.2 ≠ w2.1 * w21 then pure st
    else
      let w3 := Odds (dieAt dice d) (dieAt dice a)
      if w3.1 = 0 ∨ w3.2 = 0 then pure st
      else if w3.1 ≤ w3.2 then pure st
      else if w2.1 * w3.2 ≠ w3.1 * w2.2 then pure st
      else if w3.1 * w20 ≠ w10 * w3.2 then pure st
      else report a b c d st

/-- The body of the loop over `c` (lines 156-192). -/
def loopC (dice : List Die) (a b : Nat) (w10 w20 : Int)
    (st : SearchState) (c : Nat) : Except Fault SearchState :=
  if a = c ∨ b = c then pure st
  else
    let w1 := Odds (dieAt dice b) (dieAt dice c)
    if w1.1 = 0 ∨ w1.2 = 0 then pure st
    else if w1.1 ≤ w1.2 then pure st
    else if w10 * w1.2 ≠ w1.1 * w20 then pure st
    else (List.range dice.length).foldlM (loopD dice a b c w10 w20 w1.1 w1.2) st

/-- The body of the loop over `b` (lines 148-193). -/
def loopB (dice : List Die) (a : Nat) (st : SearchState) (b : Nat) :
    Except Fault SearchState :=
  if a = b then pure st
  else
    let w0 := Odds (dieAt dice a) (dieAt dice b)
    if w0.1 = 0 ∨ w0.2 = 0 then pure st
    else if w0.1 ≤ w0.2 then pure st
    else (List.range dice.length).foldlM (loopC dice a b w0.1 w0.2) st

/-- The body of the loop over `a` (lines 147-194). -/
def loopA (dice : List Die) (st : SearchState) (a : Nat) : Except Fault SearchState :=
  (List.range dice.length).foldlM (loopB dice a) st

/-- The search loops of `main` (lines 143-195) over a dice vector. -/
def search (dice : List Die) : Except Fault SearchState :=
  (List.range dice.length).foldlM (loopA dice) { found := [], out := [] }

/-- The construction of the vector `dice` in `main` (lines 134-140). -/
def mainDice : Except Fault (List Die) :=
  (GenerateDice []).foldlM (fun dice n => do
    let d ← DecodeDie n
    pure (dice ++ [d])) []

/-- The function `main`: build the dice, then search. -/
def main : Except Fault SearchState := do
  let dice ← mainDice
  search dice


/-! ## Specification-level notions -/

/-- The test `x > y` on face labels. -/
def gtb (x y : Int) : Bool := decide (y < x)

/-- The test `x < y` on face labels. -/
def ltb (x y : Int) : Bool := decide (x < y)

/-- The test `x = y` on face labels. -/
def eqb (x y : Int) : Bool := decide (x = y)

/-- Number of pairs `(x, y)` with `x` from `l1`, `y` from `l2` and `p x y`. -/
def pairCount (p : Int → Int → Bool) (l1 l2 : List Int) : Nat :=
  (l1.map (fun x => l2.countP (p x))).sum

/-- Number of index pairs `(i, j)` in `[0,F) × [0,F)` whose faces satisfy `p`. -/
def indexPairCount (p : Int → Int → Bool) (X Y : Die) : Nat :=
  ((List.range kNumberOfFaces).product (List.range kNumberOfFaces)).countP
    (fun ij => p (X.v.getD ij.1 0) (Y.v.getD ij.2 0))


/-- The integer `m` encodes some sequence of `r` labels below `kNumberOfLabels`: it is the
product of the primes of these labels. -/
def IsEnc (r : Nat) (m : Int) : Prop :=
  ∃ v : List Nat, v.length = r ∧ (∀ l ∈ v, l < kNumberOfLabels) ∧ m = (v.map kPrime).prod

/-- The prime `kPrime[i]` as a natural number. -/
def kPrimeNat (i : Nat) : Nat := (kPrime i).toNat

/-- The prime of a label, continued injectively beyond the labels in use. -/
def labelPrime (i : Nat) : Nat := if i < kNumberOfLabels then kPrimeNat i else i + 100

/-- The die `DecodeDie` returns for `n`, and the zero die when it does not return. -/
def dieOf (n : Int) : Die :=
  match DecodeDie n with
  | .ok d => d
  | .error _ => Die.zero

/-- The encoding of a multiset of six labels. -/
def encodeSym (s : Sym (Fin 7) 6) : Int := (s.1.map (fun i : Fin 7 => kPrime i.1)).prod

/-- The value `(a<<48)|(d<<32)|(c<<16)|(d)` that `Quadruple` returns on indices in range. -/
def quadKey (a _b c d : Nat) : Int :=
  wrap64 (((a <<< 48) ||| (d <<< 32) ||| (c <<< 16) ||| d : Nat) : Int)

/-- The tests of the loop over `b` (lines 148-154) all let `(a, b)` through. -/
def PassAB (dice : List Die) (a b : Nat) : Prop :=
  a ≠ b
    ∧ (Odds (dieAt dice a) (dieAt dice b)).1 ≠ 0 ∧ (Odds (dieAt dice a) (dieAt dice b)).2 ≠ 0
    ∧ (Odds (dieAt dice a) (dieAt dice b)).2 < (Odds (dieAt dice a) (dieAt dice b)).1

/-- The tests of the loop over `c` (lines 156-164) all let `(a, b, c)` through. -/
def PassBC (dice : List Die) (a b c : Nat) : Prop :=
  a ≠ c ∧ b ≠ c
    ∧ (Odds (dieAt dice b) (dieAt dice c)).1 ≠ 0 ∧ (Odds (dieAt dice b) (dieAt dice c)).2 ≠ 0
    ∧ (Odds (dieAt dice b) (dieAt dice c)).2 < (Odds (dieAt dice b) (dieAt dice c)).1
    ∧ (Odds (dieAt dice a) (dieAt dice b)).1 * (Odds (dieAt dice b) (dieAt dice c)).2
        = (Odds (dieAt dice b) (dieAt dice c)).1 * (Odds (dieAt dice a) (dieAt dice b)).2

/-- The tests of the loop over `d` (lines 166-183) all let `(a, b, c, d)` through. -/
def PassCD (dice : List Die) (a b c d : Nat) : Prop :=
  a ≠ d ∧ b ≠ d ∧ c ≠ d
    ∧ (Odds (dieAt dice c) (dieAt dice d)).1 ≠ 0 ∧ (Odds (dieAt dice c) (dieAt dice d)).2 ≠ 0
    ∧ (Odds (dieAt dice c) (dieAt dice d)).2 < (Odds (dieAt dice c) (dieAt dice d)).1
    ∧ (Odds (dieAt dice b) (dieAt dice c)).1 * (Odds (dieAt dice c) (dieAt dice d)).2
        = (Odds (dieAt dice c) (dieAt dice d)).1 * (Odds (dieAt dice b) (dieAt dice c)).2
    ∧ (Odds (dieAt dice d) (dieAt dice a)).1 ≠ 0 ∧ (Odds (dieAt dice d) (dieAt dice a)).2 ≠ 0
    ∧ (Odds (dieAt dice d) (dieAt dice a)).2 < (Odds (dieAt dice d) (dieAt dice a)).1
    ∧ (Odds (dieAt dice c) (dieAt dice d)).1 * (Odds (dieAt dice d) (dieAt dice a)).2
        = (Odds (dieAt dice d) (dieAt dice a)).1 * (Odds (dieAt dice c) (dieAt dice d)).2
    ∧ (Odds (dieAt dice d) (dieAt dice a)).1 * (Odds (dieAt dice a) (dieAt dice b)).2
        = (Odds (dieAt dice a) (dieAt dice b)).1 * (Odds (dieAt dice d) (dieAt dice a)).2

/-- The tuple passes every filter of the nested loops of `main` (lines 148-183). -/
def Passes (dice : List Die) (t : Nat × Nat × Nat × Nat) : Prop :=
  PassAB dice t.1 t.2.1 ∧ PassBC dice t.1 t.2.1 t.2.2.1 ∧ PassCD dice t.1 t.2.1 t.2.2.1 t.2.2.2

instance (dice : List Die) (a b : Nat) : Decidable (PassAB dice a b) := by
  unfold PassAB; infer_instance

instance (dice : List Die) (a b c : Nat) : Decidable (PassBC dice a b c) := by
  unfold PassBC; infer_instance

instance (dice : List Die) (a b c d : Nat) : Decidable (PassCD dice a b c d) := by
  unfold PassCD; infer_instance

instance (dice : List Die) (t : Nat × Nat × Nat × Nat) : Decidable (Passes dice t) := by
  unfold Passes; infer_instance

/-- Lines 184-191 of `main` when no assertion of `Quadruple` fires. -/
def reportPure (a b c d : Nat) (st : SearchState) : SearchState :=
  if quadKey a b c d ∈ st.found then st
  else
    { found := foundInsert (quadKey d a b c) (foundInsert (quadKey c d a b)
        (foundInsert (quadKey b c d a) (quadKey a b c d :: st.found))),
      out := st.out ++ [(a, b, c, d)] }

/-- One pass of the innermost loop body, seen from the tuple `(a, b, c, d)` alone. -/
def flatStep (dice : List Die) (st : SearchState) (t : Nat × Nat × Nat × Nat) : SearchState :=
  if Passes dice t then reportPure t.1 t.2.1 t.2.2.1 t.2.2.2 st else st

/-- The tuples `(a, b, c, d)` in the order in which the nested loops visit them. -/
def allTuples (n : Nat) : List (Nat × Nat × Nat × Nat) :=
  (List.range n).flatMap fun a => (List.range n).flatMap fun b =>
    (List.range n).flatMap fun c => (List.range n).map fun d => (a, b, c, d)

/-- The search as one pass over `allTuples`. -/
def flatSearch (dice : List Die) : SearchState :=
  (allTuples dice.length).foldl (flatStep dice) { found := [], out := [] }

/-- The four cyclic rotations of a tuple, itself included. -/
def rotations (t : Nat × Nat × Nat × Nat) : List (Nat × Nat × Nat × Nat) :=
  [(t.1, t.2.1, t.2.2.1, t.2.2.2), (t.2.1, t.2.2.1, t.2.2.2, t.1),
   (t.2.2.1, t.2.2.2, t.1, t.2.1), (t.2.2.2, t.1, t.2.1, t.2.2.1)]

/-- The order in which the nested loops visit tuples. -/
def visitedBefore (s t : Nat × Nat × Nat × Nat) : Prop :=
  s.1 < t.1 ∨ (s.1 = t.1 ∧ (s.2.1 < t.2.1 ∨ (s.2.1 = t.2.1 ∧
    (s.2.2.1 < t.2.2.1 ∨ (s.2.2.1 = t.2.2.1 ∧ s.2.2.2 < t.2.2.2)))))

/-- The dice vector of `main` as a list: the decoded dice in increasing order of their
encodings. -/
def mainDiceList : List Die := (GenerateDice []).map dieOf

/-- The key `Quadruple` computes for a tuple. -/
def keyOf (t : Nat × Nat × Nat × Nat) : Int := quadKey t.1 t.2.1 t.2.2.1 t.2.2.2

/-- Neither tuple is a cyclic rotation of the other. -/
def NotRotated (t t' : Nat × Nat × Nat × Nat) : Prop := t' ∉ rotations t ∧ t ∉ rotations t'

/-- The invariant of the search state: every printed tuple passed the filters, the keys of
its four rotations are in `found`, and no two printed tuples are rotations of each other. -/
def SearchInv (dice : List Die) (s : SearchState) : Prop :=
  (∀ t ∈ s.out, Passes dice t)
    ∧ (∀ t ∈ s.out, ∀ r ∈ rotations t, keyOf r ∈ s.found)
    ∧ s.out.Pairwise NotRotated

/-- The strict-beats condition of the specification on an odds pair `(w1, w2)`:
`w1 > 0`, `w2 > 0` and `w1 > w2`. -/
def Beats (w : Int × Int) : Prop := 0 < w.1 ∧ 0 < w.2 ∧ w.2 < w.1

/-- The cross-multiplication equality `w1[e] * w2[f] = w1[f] * w2[e]` of two edges. -/
def SameRatio (e f : Int × Int) : Prop := e.1 * f.2 = f.1 * e.2

/-- The contract of the cycle search on a tuple of indices: pairwise distinct, each of
the edges `(a,b)`, `(b,c)`, `(c,d)`, `(d,a)` strictly beats, and the odds ratios of the four
cyclically adjacent edge pairs are equal. -/
def Qualifies (dice : List Die) (a b c d : Nat) : Prop :=
  (a ≠ b ∧ a ≠ c ∧ a ≠ d ∧ b ≠ c ∧ b ≠ d ∧ c ≠ d)
    ∧ Beats (Odds (dieAt dice a) (dieAt dice b))
    ∧ Beats (Odds (dieAt dice b) (dieAt dice c))
    ∧ Beats (Odds (dieAt dice c) (dieAt dice d))
    ∧ Beats (Odds (dieAt dice d) (dieAt dice a))
    ∧ SameRatio (Odds (dieAt dice a) (dieAt dice b)) (Odds (dieAt dice b) (dieAt dice c))
    ∧ SameRatio (Odds (dieAt dice b) (dieAt dice c)) (Odds (dieAt dice c) (dieAt dice d))
    ∧ SameRatio (Odds (dieAt dice c) (dieAt dice d)) (Odds (dieAt dice d) (dieAt dice a))
    ∧ SameRatio (Odds (dieAt dice d) (dieAt dice a)) (Odds (dieAt dice a) (dieAt dice b))

/-- The four-dice vector `0 0 2 3 3 4`, `1 1 2 2 3 3`, `0 1 1 2 5 6`, `0 0 2 2 5 5`. -/
def sampleDice : List Die :=
  [⟨[0, 0, 2, 3, 3, 4], rfl⟩, ⟨[1, 1, 2, 2, 3, 3], rfl⟩, ⟨[0, 1, 1, 2, 5, 6], rfl⟩,
   ⟨[0, 0, 2, 2, 5, 5], rfl⟩]

deriving instance DecidableEq for Except

/-- The 924 products of six of the first seven primes, in increasing order. -/
def generatedList : List Int :=
  [64, 96, 144, 160, 216, 224, 240, 324, 336, 352,
   360, 400, 416, 486, 504, 528, 540, 544, 560, 600,
   624, 729, 756, 784, 792, 810, 816, 840, 880, 900,
   936, 1000, 1040, 1134, 1176, 1188, 1215, 1224, 1232, 1260,
   1320, 1350, 1360, 1400, 1404, 1456, 1500, 1560, 1701, 1764,
   1782, 1836, 1848, 1890, 1904, 1936, 1960, 1980, 2025, 2040,
   2100, 2106, 2184, 2200, 2250, 2288, 2340, 2500, 2600, 2646,
   2673, 2704, 2744, 2754, 2772, 2835, 2856, 2904, 2940, 2970,
   2992, 3060, 3080, 3150, 3159, 3276, 3300, 3375, 3400, 3432,
   3500, 3510, 3536, 3640, 3750, 3900, 3969, 4056, 4116, 4131,
   4158, 4284, 4312, 4356, 4410, 4455, 4488, 4590, 4620, 4624,
   4725, 4760, 4840, 4900, 4914, 4950, 5096, 5100, 5148, 5250,
   5265, 5304, 5460, 5500, 5625, 5720, 5850, 6084, 6174, 6237,
   6250, 6426, 6468, 6500, 6534, 6615, 6664, 6732, 6760, 6776,
   6860, 6885, 6930, 6936, 7140, 7260, 7350, 7371, 7425, 7480,
   7644, 7650, 7700, 7722, 7875, 7956, 8008, 8190, 8250, 8500,
   8580, 8750, 8775, 8840, 9100, 9126, 9261, 9375, 9464, 9604,
   9639, 9702, 9750, 9801, 9996, 10098, 10140, 10164, 10290, 10395,
   10404, 10472, 10648, 10710, 10780, 10890, 11025, 11220, 11466, 11475,
   11550, 11560, 11583, 11900, 11934, 12012, 12100, 12250, 12285, 12375,
   12376, 12584, 12740, 12750, 12870, 13125, 13260, 13650, 13689, 13750,
   14196, 14300, 14406, 14553, 14625, 14872, 14994, 15092, 15147, 15210,
   15246, 15435, 15606, 15625, 15708, 15972, 16065, 16170, 16184, 16250,
   16335, 16456, 16660, 16830, 16900, 16940, 17150, 17199, 17325, 17340,
   17576, 17836, 17850, 17901, 18018, 18150, 18375, 18564, 18700, 18876,
   19110, 19125, 19250, 19305, 19448, 19890, 20020, 20475, 20625, 21250,
   21294, 21450, 21609, 21875, 22100, 22308, 22491, 22638, 22750, 22815,
   22869, 22984, 23324, 23409, 23562, 23660, 23716, 23958, 24010, 24255,
   24276, 24375, 24684, 24990, 25245, 25350, 25410, 25432, 25725, 26010,
   26180, 26364, 26620, 26754, 26775, 26950, 27027, 27225, 27846, 28028,
   28050, 28314, 28665, 28875, 28900, 29172, 29750, 29835, 30030, 30056,
   30250, 30625, 30940, 31460, 31850, 31875, 31941, 32175, 33124, 33150,
   33462, 33614, 33957, 34125, 34375, 34476, 34986, 35343, 35490, 35574,
   35750, 35937, 36015, 36414, 36652, 37026, 37180, 37268, 37485, 37730,
   38025, 38115, 38148, 39015, 39270, 39304, 39546, 39930, 40131, 40425,
   40460, 40625, 41140, 41650, 41769, 42042, 42075, 42250, 42350, 42471,
   42875, 43316, 43350, 43758, 43940, 44044, 44590, 44625, 45045, 45084,
   45375, 46410, 46750, 47190, 47775, 48125, 48620, 49686, 49725, 50050,
   50193, 50421, 51714, 52052, 52479, 52822, 53125, 53235, 53361, 53625,
   54621, 54978, 55250, 55539, 55770, 55902, 56595, 56644, 56875, 57222,
   57460, 57596, 58310, 58564, 58905, 58956, 59150, 59290, 59319, 59895,
   60025, 60690, 61516, 61710, 62426, 62475, 63063, 63375, 63525, 63580,
   64974, 65025, 65450, 65637, 65910, 66066, 66550, 66885, 67375, 67626,
   68068, 69212, 69615, 70070, 70125, 70785, 72250, 72930, 74375, 74529,
   75075, 75140, 75625, 77350, 77571, 78078, 78650, 79233, 79625, 80444,
   81634, 81796, 82467, 82810, 82875, 83006, 83655, 83853, 84035, 84966,
   85833, 86190, 86394, 87465, 87846, 88434, 88725, 88935, 89012, 89375,
   90508, 91035, 91630, 92274, 92565, 92950, 93170, 93639, 94325, 95370,
   96668, 97461, 98098, 98175, 98260, 98865, 99099, 99825, 101150, 101439,
   102102, 102850, 103818, 104125, 105105, 105196, 105625, 105875, 106964, 108290,
   108375, 109395, 109850, 110110, 111475, 112710, 114244, 115934, 116025, 116875,
   117117, 117649, 117975, 120666, 121550, 122451, 122694, 124215, 124509, 125125,
   126412, 127449, 128282, 129285, 129591, 130130, 130438, 131769, 132055, 132651,
   133518, 135762, 137445, 137564, 138125, 138411, 139425, 139755, 139876, 141610,
   143055, 143650, 143990, 145002, 145775, 146410, 147147, 147390, 147875, 148225,
   149396, 151606, 151725, 153153, 153790, 154154, 154275, 155727, 156065, 157794,
   158950, 160446, 162435, 163625, 164775, 165165, 165308, 166375, 169065, 170170,
   171366, 173030, 173901, 175175, 180625, 180999, 182182, 182325, 184041, 184877,
   187850, 189618, 192423, 193375, 195195, 195364, 195657, 196625, 198254, 200277,
   201110, 201586, 203643, 204085, 204490, 204974, 206346, 207025, 207515, 209814,
   212415, 215306, 215475, 215985, 216172, 217503, 218491, 219615, 221085, 222530,
   224094, 226270, 227409, 229075, 230685, 231231, 232375, 232925, 236691, 238238,
   238425, 240669, 241670, 242242, 245245, 245650, 247962, 252875, 255255, 255476,
   257049, 257125, 259545, 262990, 267410, 270725, 273273, 274625, 275275, 281554,
   281775, 284427, 285610, 285719, 286286, 289835, 290521, 293046, 297381, 301665,
   302379, 303875, 306735, 307461, 309519, 311542, 314721, 316030, 316778, 320705,
   322102, 322959, 324258, 325325, 326095, 333795, 334084, 336141, 338338, 339405,
   343343, 343910, 349690, 354025, 357357, 359125, 359975, 362505, 363363, 366025,
   368186, 368475, 371943, 373490, 374374, 379015, 380666, 383214, 384475, 385385,
   394485, 397375, 399854, 401115, 405769, 413270, 422331, 425425, 428415, 429429,
   432575, 439569, 442442, 448987, 449878, 455455, 456533, 467313, 469625, 474045,
   475167, 481474, 483153, 486387, 488410, 489566, 495635, 497794, 501126, 502775,
   503965, 507507, 511225, 512435, 515865, 522886, 524535, 530621, 531674, 538265,
   539539, 540430, 552279, 556325, 560235, 561561, 565675, 570999, 574821, 578578,
   588302, 595595, 599781, 604175, 605605, 614125, 619905, 628342, 637637, 638690,
   657475, 663663, 668525, 674817, 683774, 693889, 695266, 703885, 705551, 714025,
   715715, 717409, 722211, 732615, 734349, 742586, 746691, 751689, 753571, 756602,
   769318, 778855, 784329, 790075, 791945, 797511, 805255, 810645, 821678, 833833,
   835210, 845845, 847847, 859775, 867867, 874225, 882453, 894166, 909194, 920465,
   933725, 935935, 942513, 951665, 958035, 971074, 985439, 999635, 1002001, 1025661,
   1033175, 1042899, 1074502, 1090397, 1106105, 1108723, 1113879, 1124695, 1127357, 1134903,
   1153977, 1169294, 1184183, 1188946, 1203685, 1221025, 1223915, 1232517, 1244485, 1252815,
   1269866, 1288651, 1307215, 1310309, 1329185, 1332331, 1341249, 1351075, 1363791, 1399489,
   1405118, 1446445, 1456611, 1470755, 1548547, 1570855, 1574573, 1596725, 1611753, 1660594,
   1685159, 1709435, 1713481, 1738165, 1742279, 1753941, 1771561, 1783419, 1830101, 1837462,
   1856465, 1860859, 1891505, 1904799, 1923295, 2025023, 2054195, 2059057, 2088025, 2093663,
   2107677, 2171546, 2199197, 2235415, 2272985, 2393209, 2427685, 2433431, 2474329, 2490891,
   2599051, 2648107, 2686255, 2692613, 2737867, 2756193, 2839714, 2875873, 2923235, 2924207,
   2972365, 3129581, 3174665, 3182179, 3235661, 3257319, 3398759, 3455881, 3512795, 3760757,
   3823963, 4084223, 4092529, 4151485, 4161311, 4231249, 4259571, 4444531, 4519229, 4593655,
   4826809, 4917913, 5000567, 5340907, 5428865, 5812079, 5909761, 6311981, 6431117, 6539203,
   6984263, 7099285, 7600411, 7728149, 8254129, 9133267, 9938999, 10106041, 10793861, 11943503,
   14115049, 15618427, 18458141, 24137569]

/-- Whether `DecodeDie` returns on `n`. -/
def decodes (n : Int) : Bool :=
  match DecodeDie n with
  | .ok _ => true
  | .error _ => false

/-- Whether a list of integers is strictly increasing. -/
def increasing : List Int → Bool
  | [] => true
  | [_] => true
  | x :: y :: rest => decide (x < y) && increasing (y :: rest)

/-! ## Notions for the later statements -/

/-- The function `AddFace` with the product `n * kPrime[i]` taken in the integers, without
reduction to 64 bits. -/
def AddFaceExact (s : List Int) : List Int :=
  s.foldl (fun tmp n =>
    (List.range kNumberOfLabels).foldl
      (fun tmp i => setInsert (n * kPrime i) tmp) tmp) []

/-- The function `GenerateDice` over `AddFaceExact`. -/
def GenerateDiceExact (s : List Int) : List Int :=
  (List.range kNumberOfFaces).foldl (fun s _ => AddFaceExact s) (setInsert 1 s)

/-- The working set of `GenerateDice` on the empty set before round `r` of `AddFace`
(after `r` rounds). -/
def roundSet : Nat → List Int
  | 0 => setInsert 1 []
  | r + 1 => AddFace (roundSet r)

/-- What `PrintFound` prints: the four face lines, the four odds `w1:w2`, and whether the
marker `(no ties)` follows. -/
structure FoundBlock where
  faces : List (List Int)
  odds : List (Int × Int)
  noTies : Bool
  deriving DecidableEq

/-- The function `PrintDice`: the faces it prints after the letter. -/
def PrintDice (d : Die) : List Int :=
  (List.range kNumberOfFaces).map (fun j => d.v.getD j 0)

/-- The function `PrintFound`; `w1` and `w2` are the arrays of four odds. In `main` it is
called with `dice[a]`, `dice[b]`, `dice[c]`, `dice[d]` and the odds of the edges `(a,b)`,
`(b,c)`, `(c,d)`, `(d,a)` that the loops have just computed. -/
def PrintFound (a b c d : Die) (w1 w2 : List Int) : FoundBlock :=
  { faces := [PrintDice a, PrintDice b, PrintDice c, PrintDice d],
    odds := [(w1.getD 0 0, w2.getD 0 0), (w1.getD 1 0, w2.getD 1 0),
             (w1.getD 2 0, w2.getD 2 0), (w1.getD 3 0, w2.getD 3 0)],
    noTies := decide
      (w1.getD 0 0 + w2.getD 0 0 = (kNumberOfFaces : Int) * (kNumberOfFaces : Int) ∧
       w1.getD 1 0 + w2.getD 1 0 = (kNumberOfFaces : Int) * (kNumberOfFaces : Int) ∧
       w1.getD 2 0 + w2.getD 2 0 = (kNumberOfFaces : Int) * (kNumberOfFaces : Int) ∧
       w1.getD 3 0 + w2.getD 3 0 = (kNumberOfFaces : Int) * (kNumberOfFaces : Int)) }

/-- No face of `X` equals a face of `Y`. -/
def TieFree (X Y : Die) : Prop := ∀ x ∈ X.v, ∀ y ∈ Y.v, x ≠ y

/-- The decoding loop in the words of the specification: test the primes in increasing
order; when one divides, record its label, divide it out and restart the scan from the
smallest prime; stop when the remaining value is `1` or `kNumberOfFaces` labels have been
recorded (or no prime divides). -/
def specDecodeLoop : Nat → Nat → DecodeState → Option DecodeState
  | 0, _, _ => none
  | fuel + 1, i, st =>
    if st.n = 1 ∨ st.k = kNumberOfFaces then some st
    else if i < kNumberOfLabels then
      if Int.tmod st.n (kPrime i) = 0 then
        specDecodeLoop fuel 0
          { d := st.d.set st.k (i : Int), k := st.k + 1, n := Int.tdiv st.n (kPrime i) }
      else specDecodeLoop fuel (i + 1) st
    else some st

/-- Fuel for `specDecodeLoop`: at most `kNumberOfLabels + 1` passes per division. -/
def specDecodeFuel (n : Int) : Nat := (n.natAbs + 1) * (kNumberOfLabels + 1)

/-- The reference decoder of the specification, with the same post-condition as
`DecodeDie`. -/
def DecodeDieSpec (n : Int) : Except Fault Die :=
  match specDecodeLoop (specDecodeFuel n) 0 { d := Die.zero, k := 0, n := n } with
  | none => .error .nontermination
  | some st =>
    if st.k = kNumberOfFaces then
      if st.n = 1 then .ok st.d else .error .assertion
    else .error .assertion

/-! ## Counting face pairs -/

theorem Die.map_getD_range (d : Die) :
    (List.range kNumberOfFaces).map (fun i => d.v.getD i 0) = d.v := by
  apply List.ext_getElem
  · simp [d.size]
  · intro n h1 h2
    simp only [List.getElem_map, List.getElem_range]
    exact List.getD_eq_getElem _ _ h2

theorem oddsInner_eq (x : Int) (l : List Int) (acc : Int × Int) :
    l.foldl (fun acc y =>
      if x < y then (acc.1, acc.2 + 1)
      else if x > y then (acc.1 + 1, acc.2)
      else acc) acc
    = (acc.1 + (l.countP (gtb x) : Nat), acc.2 + (l.countP (ltb x) : Nat)) := by
  induction l generalizing acc with
  | nil => simp
  | cons y ys ih =>
    rw [List.foldl_cons, ih, List.countP_cons, List.countP_cons]
    by_cases h1 : x < y
    · have e1 : ltb x y = true := by simp [ltb, h1]
      have e2 : gtb x y = false := by simp [gtb]; omega
      simp only [h1, e1, e2, if_true]
      ext <;> simp; omega
    · by_cases h2 : x > y
      · have e1 : ltb x y = false := by simp [ltb]; omega
        have e2 : gtb x y = true := by simp [gtb]; omega
        simp only [h1, h2, e1, e2, if_true, if_false]
        ext <;> simp; omega
      · have e1 : ltb x y = false := by simp [ltb]; omega
        have e2 : gtb x y = false := by simp [gtb]; omega
        simp only [h1, h2, e1, e2, if_false]
        ext <;> simp

theorem oddsOuter_eq (l1 l2 : List Int) (acc : Int × Int) :
    l1.foldl (fun acc x =>
      l2.foldl (fun acc y =>
        if x < y then (acc.1, acc.2 + 1)
        else if x > y then (acc.1 + 1, acc.2)
        else acc) acc) acc
    = (acc.1 + (pairCount gtb l1 l2 : Nat), acc.2 + (pairCount ltb l1 l2 : Nat)) := by
  induction l1 generalizing acc with
  | nil => simp [pairCount]
  | cons x xs ih =>
    rw [List.foldl_cons, oddsInner_eq, ih]
    simp only [pairCount, List.map_cons, List.sum_cons, Nat.cast_add]
    ext <;> simp only [] <;> omega

/-- The result of `Odds` as two pair counts over the face lists. -/
theorem Odds_eq_pairCount (d1 d2 : Die) :
    Odds d1 d2 = (((pairCount gtb d1.v d2.v : Nat) : Int), ((pairCount ltb d1.v d2.v : Nat) : Int)) := by
  have h := oddsOuter_eq d1.v d2.v (0, 0)
  rw [← Die.map_getD_range d1, ← Die.map_getD_range d2] at h
  simp only [List.foldl_map] at h
  rw [Die.map_getD_range d1, Die.map_getD_range d2] at h
  unfold Odds
  rw [h]
  simp

theorem pairCount_swap (p : Int → Int → Bool) (l1 l2 : List Int) :
    pairCount p l1 l2 = pairCount (fun y x => p x y) l2 l1 := by
  induction l1 with
  | nil => simp [pairCount]
  | cons x xs ih =>
    have key : ∀ l : List Int,
        (l.map (fun y => (x :: xs).countP (fun x => p x y))).sum
          = l.countP (p x) + (l.map (fun y => xs.countP (fun x => p x y))).sum := by
      intro l
      induction l with
      | nil => simp
      | cons y ys ih2 =>
        rw [List.map_cons, List.sum_cons, ih2, List.map_cons, List.sum_cons,
          List.countP_cons, List.countP_cons]
        omega
    unfold pairCount at ih ⊢
    rw [key, ← ih, List.map_cons, List.sum_cons]

theorem pairCount_perm (p : Int → Int → Bool) {l1 l1' l2 l2' : List Int}
    (h1 : l1'.Perm l1) (h2 : l2'.Perm l2) :
    pairCount p l1' l2' = pairCount p l1 l2 := by
  have e1 : pairCount p l1' l2' = pairCount p l1 l2' := by
    unfold pairCount
    exact (h1.map _).sum_eq
  have e2 : pairCount p l1 l2' = pairCount p l1 l2 := by
    unfold pairCount
    congr 1
    apply List.map_congr_left
    intro x _
    exact h2.countP_eq _
  rw [e1, e2]

theorem countP_trichotomy (x : Int) (l : List Int) :
    l.countP (gtb x) + l.countP (ltb x) + l.countP (eqb x) = l.length := by
  induction l with
  | nil => simp
  | cons y ys ih =>
    rw [List.countP_cons, List.countP_cons, List.countP_cons, List.length_cons]
    rcases lt_trichotomy x y with h | h | h
    · have e1 : ltb x y = true := by simp [ltb, h]
      have e2 : gtb x y = false := by simp [gtb]; omega
      have e3 : eqb x y = false := by simp [eqb]; omega
      simp only [e1, e2, e3, if_true]
      simp only [Bool.false_eq_true, if_false]
      omega
    · have e1 : ltb x y = false := by simp [ltb]; omega
      have e2 : gtb x y = false := by simp [gtb]; omega
      have e3 : eqb x y = true := by simp [eqb, h]
      simp only [e1, e2, e3, if_true]
      simp only [Bool.false_eq_true, if_false]
      omega
    · have e1 : ltb x y = false := by simp [ltb]; omega
      have e2 : gtb x y = true := by simp [gtb, h]
      have e3 : eqb x y = false := by simp [eqb]; omega
      simp only [e1, e2, e3, if_true]
      simp only [Bool.false_eq_true, if_false]
      omega

theorem pairCount_trichotomy (l1 l2 : List Int) :
    pairCount gtb l1 l2 + pairCount ltb l1 l2 + pairCount eqb l1 l2
      = l1.length * l2.length := by
  induction l1 with
  | nil => simp [pairCount]
  | cons x xs ih =>
    simp only [pairCount, List.map_cons, List.sum_cons, List.length_cons] at ih ⊢
    have := countP_trichotomy x l2
    rw [Nat.succ_mul]
    omega

theorem countP_product (q : Nat × Nat → Bool) (l1 l2 : List Nat) :
    (l1.product l2).countP q = (l1.map (fun i => l2.countP (fun j => q (i, j)))).sum := by
  induction l1 with
  | nil => simp [List.product]
  | cons i is ih =>
    have : (i :: is).product l2 = List.map (fun b => (i, b)) l2 ++ is.product l2 :=
      List.product_cons i is l2
    rw [this, List.countP_append, ih, List.countP_map, List.map_cons, List.sum_cons]
    rfl

/-- Counting index pairs is counting pairs of faces. -/
theorem indexPairCount_eq (p : Int → Int → Bool) (X Y : Die) :
    indexPairCount p X Y = pairCount p X.v Y.v := by
  unfold indexPairCount pairCount
  rw [countP_product]
  conv_rhs => rw [← Die.map_getD_range X, ← Die.map_getD_range Y]
  rw [List.map_map]
  apply congrArg
  apply List.map_congr_left
  intro i _
  simp only [Function.comp_def, List.countP_map]

/-! ## Claims on `Odds` -/

/-- C7 (odds symmetry): for any two dice `X`, `Y`, if `Odds(X,Y)` writes `(w1,w2)` then
`Odds(Y,X)` writes `(w2,w1)`. -/
theorem Odds_symm (X Y : Die) (w1 w2 : Int) (h : Odds X Y = (w1, w2)) :
    Odds Y X = (w2, w1) := by
  rw [Odds_eq_pairCount] at h ⊢
  have e1 : pairCount gtb Y.v X.v = pairCount ltb X.v Y.v := by
    rw [pairCount_swap gtb Y.v X.v]; rfl
  have e2 : pairCount ltb Y.v X.v = pairCount gtb X.v Y.v := by
    rw [pairCount_swap ltb Y.v X.v]; rfl
  rw [e1, e2]
  simp only [Prod.mk.injEq] at h ⊢
  exact ⟨h.2, h.1⟩

/-- Witness of C7 on the dice `0 0 2 3 3 4` and `0 2 2 2 2 5`. -/
theorem Odds_symm_witness :
    Odds ⟨[0, 0, 2, 3, 3, 4], rfl⟩ ⟨[0, 2, 2, 2, 2, 5], rfl⟩ = (16, 14)
      ∧ Odds ⟨[0, 2, 2, 2, 2, 5], rfl⟩ ⟨[0, 0, 2, 3, 3, 4], rfl⟩ = (14, 16) :=
  ⟨by decide, Odds_symm ⟨[0, 0, 2, 3, 3, 4], rfl⟩ ⟨[0, 2, 2, 2, 2, 5], rfl⟩ 16 14 (by decide)⟩

/-- C8 (odds bound and tie count): for any two dice `X`, `Y` with `Odds(X,Y) = (w1,w2)`:
`w1 ≥ 0`, `w2 ≥ 0`, `w1 + w2 ≤ 36`; `36 - w1 - w2` is the number of index pairs
`(i,j)` with `X[i] = Y[j]`; `w1` is the number of pairs with `X[i] > Y[j]` and `w2` the
number with `X[i] < Y[j]`. -/
theorem Odds_bound_ties (X Y : Die) :
    0 ≤ (Odds X Y).1 ∧ 0 ≤ (Odds X Y).2 ∧ (Odds X Y).1 + (Odds X Y).2 ≤ 36
      ∧ 36 - (Odds X Y).1 - (Odds X Y).2 = (indexPairCount eqb X Y : Int)
      ∧ (Odds X Y).1 = (indexPairCount gtb X Y : Int)
      ∧ (Odds X Y).2 = (indexPairCount ltb X Y : Int) := by
  have ht := pairCount_trichotomy X.v Y.v
  rw [X.size, Y.size] at ht
  simp only [kNumberOfFaces] at ht
  rw [Odds_eq_pairCount, indexPairCount_eq, indexPairCount_eq, indexPairCount_eq]
  refine ⟨?_, ?_, ?_, ?_, rfl, rfl⟩ <;> simp only [] <;> omega

/-- C10 (odds depend on the multiset only): rearranging the faces of either die does
not change `Odds`. -/
theorem Odds_perm (X Y X' Y' : Die) (hX : X'.v.Perm X.v) (hY : Y'.v.Perm Y.v) :
    Odds X' Y' = Odds X Y := by
  rw [Odds_eq_pairCount, Odds_eq_pairCount, pairCount_perm gtb hX hY,
    pairCount_perm ltb hX hY]

/-- Witness of C10: `4 3 3 2 0 0` against `5 2 2 2 2 0` gives the odds of the sorted dice. -/
theorem Odds_perm_witness :
    [4, 3, 3, 2, 0, 0].Perm [0, 0, 2, 3, 3, (4 : Int)]
      ∧ [5, 2, 2, 2, 2, 0].Perm [0, 2, 2, 2, 2, (5 : Int)]
      ∧ Odds ⟨[4, 3, 3, 2, 0, 0], rfl⟩ ⟨[5, 2, 2, 2, 2, 0], rfl⟩
        = Odds ⟨[0, 0, 2, 3, 3, 4], rfl⟩ ⟨[0, 2, 2, 2, 2, 5], rfl⟩ :=
  ⟨by decide, by decide,
   Odds_perm ⟨[0, 0, 2, 3, 3, 4], rfl⟩ ⟨[0, 2, 2, 2, 2, 5], rfl⟩
    ⟨[4, 3, 3, 2, 0, 0], rfl⟩ ⟨[5, 2, 2, 2, 2, 0], rfl⟩ (by decide) (by decide)⟩

/-! ## The generator -/

theorem mem_setInsert (m x : Int) (l : List Int) :
    m ∈ setInsert x l ↔ m = x ∨ m ∈ l := by
  induction l with
  | nil => simp [setInsert]
  | cons y ys ih =>
    unfold setInsert
    by_cases h1 : x < y
    · simp [h1]
    · by_cases h2 : x = y
      · subst h2; simp
      · simp only [h1, h2, if_false, List.mem_cons, ih]
        tauto

theorem setInsert_sorted (x : Int) (l : List Int) (h : l.Pairwise (· < ·)) :
    (setInsert x l).Pairwise (· < ·) := by
  induction l with
  | nil => simp [setInsert]
  | cons y ys ih =>
    unfold setInsert
    rw [List.pairwise_cons] at h
    by_cases h1 : x < y
    · simp only [h1, if_true, List.pairwise_cons]
      refine ⟨?_, h.1, h.2⟩
      intro a ha
      rcases List.mem_cons.1 ha with rfl | ha
      · exact h1
      · exact lt_trans h1 (h.1 a ha)
    · by_cases h2 : x = y
      · simp only [h1, h2, if_false, if_true, lt_self_iff_false, List.pairwise_cons]
        exact ⟨h.1, h.2⟩
      · simp only [h1, h2, if_false, List.pairwise_cons]
        refine ⟨?_, ih h.2⟩
        intro a ha
        rcases (mem_setInsert a x ys).1 ha with rfl | ha
        · omega
        · exact h.1 a ha

theorem mem_foldl_setInsert {α : Type} (f : α → Int) (l : List α) (tmp : List Int) (m : Int) :
    m ∈ l.foldl (fun tmp i => setInsert (f i) tmp) tmp ↔ m ∈ tmp ∨ ∃ i ∈ l, m = f i := by
  induction l generalizing tmp with
  | nil => simp
  | cons a as ih =>
    rw [List.foldl_cons, ih, mem_setInsert]
    constructor
    · rintro ((h | h) | ⟨i, hi, h⟩)
      · exact Or.inr ⟨a, List.mem_cons_self _ _, h⟩
      · exact Or.inl h
      · exact Or.inr ⟨i, List.mem_cons_of_mem _ hi, h⟩
    · rintro (h | ⟨i, hi, h⟩)
      · exact Or.inl (Or.inr h)
      · rcases List.mem_cons.1 hi with rfl | hi
        · exact Or.inl (Or.inl h)
        · exact Or.inr ⟨i, hi, h⟩

theorem foldl_setInsert_sorted {α : Type} (f : α → Int) (l : List α) (tmp : List Int)
    (h : tmp.Pairwise (· < ·)) :
    (l.foldl (fun tmp i => setInsert (f i) tmp) tmp).Pairwise (· < ·) := by
  induction l generalizing tmp with
  | nil => simpa using h
  | cons a as ih =>
    rw [List.foldl_cons]
    exact ih _ (setInsert_sorted _ _ h)

theorem mem_addFace_fold (s tmp : List Int) (m : Int) :
    m ∈ s.foldl (fun tmp n =>
        (List.range kNumberOfLabels).foldl
          (fun tmp i => setInsert (wrap64 (n * kPrime i)) tmp) tmp) tmp
      ↔ m ∈ tmp ∨ ∃ n ∈ s, ∃ i, i < kNumberOfLabels ∧ m = wrap64 (n * kPrime i) := by
  induction s generalizing tmp with
  | nil => simp
  | cons a as ih =>
    rw [List.foldl_cons, ih, mem_foldl_setInsert]
    constructor
    · rintro ((h | ⟨i, hi, h⟩) | ⟨n, hn, i, hi, h⟩)
      · exact Or.inl h
      · exact Or.inr ⟨a, List.mem_cons_self _ _, i, List.mem_range.1 hi, h⟩
      · exact Or.inr ⟨n, List.mem_cons_of_mem _ hn, i, hi, h⟩
    · rintro (h | ⟨n, hn, i, hi, h⟩)
      · exact Or.inl (Or.inl h)
      · rcases List.mem_cons.1 hn with rfl | hn
        · exact Or.inl (Or.inr ⟨i, List.mem_range.2 hi, h⟩)
        · exact Or.inr ⟨n, hn, i, hi, h⟩

theorem addFace_fold_sorted (s tmp : List Int) (h : tmp.Pairwise (· < ·)) :
    (s.foldl (fun tmp n =>
        (List.range kNumberOfLabels).foldl
          (fun tmp i => setInsert (wrap64 (n * kPrime i)) tmp) tmp) tmp).Pairwise (· < ·) := by
  induction s generalizing tmp with
  | nil => simpa using h
  | cons a as ih =>
    rw [List.foldl_cons]
    exact ih _ (foldl_setInsert_sorted _ _ _ h)

/-- Membership in the set built by `AddFace`. -/
theorem mem_AddFace (s : List Int) (m : Int) :
    m ∈ AddFace s ↔ ∃ n ∈ s, ∃ i, i < kNumberOfLabels ∧ m = wrap64 (n * kPrime i) := by
  unfold AddFace
  rw [mem_addFace_fold]
  simp

/-- The list built by `AddFace` is strictly increasing. -/
theorem AddFace_sorted (s : List Int) : (AddFace s).Pairwise (· < ·) :=
  addFace_fold_sorted s [] List.Pairwise.nil

theorem wrap64_eq_self (x : Int) (h0 : 0 ≤ x) (h1 : x < 9223372036854775808) :
    wrap64 x = x := by
  unfold wrap64
  omega

theorem kPrime_bounds (i : Nat) (h : i < kNumberOfLabels) : 2 ≤ kPrime i ∧ kPrime i ≤ 17 := by
  unfold kNumberOfLabels at h
  interval_cases i <;> simp [kPrime, kPrimeTable]

theorem IsEnc_bounds (r : Nat) (m : Int) (h : IsEnc r m) : 1 ≤ m ∧ m ≤ 17 ^ r := by
  obtain ⟨v, hlen, hv, rfl⟩ := h
  induction v generalizing r with
  | nil => simp at hlen; subst hlen; simp
  | cons l ls ih =>
    simp only [List.length_cons] at hlen
    subst hlen
    have hl := kPrime_bounds l (hv l (List.mem_cons_self _ _))
    have := ih ls.length rfl (fun x hx => hv x (List.mem_cons_of_mem _ hx))
    rw [List.map_cons, List.prod_cons, pow_succ]
    constructor
    · nlinarith
    · nlinarith

theorem IsEnc_succ (r : Nat) (m : Int) :
    IsEnc (r + 1) m ↔ ∃ n, IsEnc r n ∧ ∃ i, i < kNumberOfLabels ∧ m = n * kPrime i := by
  constructor
  · rintro ⟨v, hlen, hv, rfl⟩
    cases v with
    | nil => simp at hlen
    | cons l ls =>
      refine ⟨(ls.map kPrime).prod, ⟨ls, by simpa using hlen,
        fun x hx => hv x (List.mem_cons_of_mem _ hx), rfl⟩, l, hv l (List.mem_cons_self _ _), ?_⟩
      rw [List.map_cons, List.prod_cons, mul_comm]
  · rintro ⟨n, ⟨v, hlen, hv, rfl⟩, i, hi, rfl⟩
    refine ⟨i :: v, by simp [hlen], ?_, ?_⟩
    · intro x hx
      rcases List.mem_cons.1 hx with rfl | hx
      · exact hi
      · exact hv x hx
    · rw [List.map_cons, List.prod_cons, mul_comm]

/-- One round of `AddFace` turns the encodings of `r` faces into those of `r + 1`. -/
theorem AddFace_IsEnc (r : Nat) (hr : r < 6) (s : List Int) (hs : ∀ m, m ∈ s ↔ IsEnc r m)
    (m : Int) : m ∈ AddFace s ↔ IsEnc (r + 1) m := by
  have hw : ∀ n, IsEnc r n → ∀ i, i < kNumberOfLabels → wrap64 (n * kPrime i) = n * kPrime i := by
    intro n hn i hi
    have hb := IsEnc_bounds r n hn
    have hp := kPrime_bounds i hi
    have h17 : (17 : Int) ^ r ≤ 17 ^ 5 := pow_le_pow_right₀ (by norm_num) (by omega)
    apply wrap64_eq_self
    · nlinarith
    · have : n * kPrime i ≤ 17 ^ 5 * 17 := by nlinarith
      norm_num at this ⊢
      omega
  rw [mem_AddFace, IsEnc_succ]
  constructor
  · rintro ⟨n, hn, i, hi, rfl⟩
    exact ⟨n, (hs n).1 hn, i, hi, hw n ((hs n).1 hn) i hi⟩
  · rintro ⟨n, hn, i, hi, rfl⟩
    exact ⟨n, (hs n).2 hn, i, hi, (hw n hn i hi).symm⟩

theorem GenerateDice_unfold :
    GenerateDice [] = AddFace (AddFace (AddFace (AddFace (AddFace (AddFace [1]))))) := by
  have hr : List.range kNumberOfFaces = [0, 1, 2, 3, 4, 5] := by decide
  have h1 : setInsert 1 [] = [1] := rfl
  unfold GenerateDice
  rw [hr, h1, List.foldl_cons, List.foldl_cons, List.foldl_cons, List.foldl_cons,
    List.foldl_cons, List.foldl_cons, List.foldl_nil]

/-- Membership in the generated set: the products of six of the first seven primes. -/
theorem mem_GenerateDice (m : Int) : m ∈ GenerateDice [] ↔ IsEnc 6 m := by
  have h0 : ∀ m, m ∈ ([1] : List Int) ↔ IsEnc 0 m := by
    intro m
    constructor
    · intro h
      exact ⟨[], rfl, by simp, by simpa using h⟩
    · rintro ⟨v, hlen, _, rfl⟩
      have : v = [] := List.length_eq_zero.1 hlen
      subst this
      simp
  have h1 := AddFace_IsEnc 0 (by omega) _ h0
  have h2 := AddFace_IsEnc 1 (by omega) _ h1
  have h3 := AddFace_IsEnc 2 (by omega) _ h2
  have h4 := AddFace_IsEnc 3 (by omega) _ h3
  have h5 := AddFace_IsEnc 4 (by omega) _ h4
  have h6 := AddFace_IsEnc 5 (by omega) _ h5
  rw [GenerateDice_unfold]
  exact h6 m

/-- The generated set is strictly increasing, hence free of duplicates. -/
theorem GenerateDice_sorted : (GenerateDice []).Pairwise (· < ·) := by
  rw [GenerateDice_unfold]
  exact AddFace_sorted _

/-! ## Unique factorisation of the encodings -/

theorem kPrime_eq_kPrimeNat (i : Nat) (h : i < kNumberOfLabels) :
    kPrime i = (kPrimeNat i : Int) := by
  unfold kNumberOfLabels at h
  interval_cases i <;> simp [kPrime, kPrimeNat, kPrimeTable]

theorem kPrimeNat_prime (i : Nat) (h : i < kNumberOfLabels) : Nat.Prime (kPrimeNat i) := by
  unfold kNumberOfLabels at h
  interval_cases i <;> simp [kPrimeNat, kPrime, kPrimeTable] <;> norm_num

theorem kPrimeNat_inj (i j : Nat) (hi : i < kNumberOfLabels) (hj : j < kNumberOfLabels)
    (h : kPrimeNat i = kPrimeNat j) : i = j := by
  unfold kNumberOfLabels at hi hj
  interval_cases i <;> interval_cases j <;> simp [kPrimeNat, kPrime, kPrimeTable] at h ⊢

theorem labelPrime_eq (i : Nat) (h : i < kNumberOfLabels) : labelPrime i = kPrimeNat i := by
  simp [labelPrime, h]

theorem labelPrime_injective : Function.Injective labelPrime := by
  intro i j h
  unfold labelPrime at h
  by_cases hi : i < kNumberOfLabels <;> by_cases hj : j < kNumberOfLabels
  · simp only [hi, hj, if_true] at h
    exact kPrimeNat_inj i j hi hj h
  · simp only [hi, hj, if_true, if_false] at h
    have := (kPrime_bounds i hi).2
    rw [kPrime_eq_kPrimeNat i hi] at this
    omega
  · simp only [hi, hj, if_true, if_false] at h
    have := (kPrime_bounds j hj).2
    rw [kPrime_eq_kPrimeNat j hj] at this
    omega
  · simp only [hi, hj, if_false] at h
    omega

theorem map_kPrime_eq (v : List Nat) (hv : ∀ l ∈ v, l < kNumberOfLabels) :
    v.map kPrime = (v.map labelPrime).map (fun p : Nat => (p : Int)) := by
  rw [List.map_map]
  apply List.map_congr_left
  intro l hl
  simp [labelPrime_eq l (hv l hl), kPrime_eq_kPrimeNat l (hv l hl)]

theorem prod_kPrime_eq (v : List Nat) (hv : ∀ l ∈ v, l < kNumberOfLabels) :
    (v.map kPrime).prod = (((v.map labelPrime).prod : Nat) : Int) := by
  rw [map_kPrime_eq v hv]
  simp [List.prod_map_hom]

/-- Two label sequences have the same encoding exactly when they are rearrangements of
each other. -/
theorem prod_kPrime_eq_iff_perm (v w : List Nat) (hv : ∀ l ∈ v, l < kNumberOfLabels)
    (hw : ∀ l ∈ w, l < kNumberOfLabels) :
    (v.map kPrime).prod = (w.map kPrime).prod ↔ v.Perm w := by
  constructor
  · intro h
    rw [prod_kPrime_eq v hv, prod_kPrime_eq w hw] at h
    have h' : (v.map labelPrime).prod = (w.map labelPrime).prod := by exact_mod_cast h
    have pv : ∀ p ∈ v.map labelPrime, Nat.Prime p := by
      intro p hp
      obtain ⟨l, hl, rfl⟩ := List.mem_map.1 hp
      rw [labelPrime_eq l (hv l hl)]
      exact kPrimeNat_prime l (hv l hl)
    have pw : ∀ p ∈ w.map labelPrime, Nat.Prime p := by
      intro p hp
      obtain ⟨l, hl, rfl⟩ := List.mem_map.1 hp
      rw [labelPrime_eq l (hw l hl)]
      exact kPrimeNat_prime l (hw l hl)
    have e1 := Nat.primeFactorsList_unique h' pv
    have e2 := Nat.primeFactorsList_unique rfl pw
    have e3 : Multiset.map labelPrime (v : Multiset Nat) = Multiset.map labelPrime w := by
      rw [Multiset.map_coe, Multiset.map_coe]
      exact Multiset.coe_eq_coe.2 (e1.trans e2.symm)
    exact Multiset.coe_eq_coe.1 (Multiset.map_injective labelPrime_injective e3)
  · intro h
    exact (h.map kPrime).prod_eq

/-- C3 (the encoding is a bijection): an integer is in the generated set exactly when it
is the product of `kPrime[l]` over some sequence of six labels below seven, and two such
sequences have the same product exactly when one is a permutation of the other. -/
theorem GenerateDice_bijection :
    (∀ n : Int, n ∈ GenerateDice [] ↔
      ∃ v : List Nat, v.length = 6 ∧ (∀ l ∈ v, l < 7) ∧ n = (v.map kPrime).prod)
    ∧ (∀ v w : List Nat, v.length = 6 → w.length = 6 → (∀ l ∈ v, l < 7) → (∀ l ∈ w, l < 7) →
      ((v.map kPrime).prod = (w.map kPrime).prod ↔ v.Perm w)) :=
  ⟨fun n => mem_GenerateDice n, fun v w _ _ hv hw => prod_kPrime_eq_iff_perm v w hv hw⟩

/-! ## The decoder -/

theorem kPrime_not_dvd (i : Nat) (hi : i < kNumberOfLabels) (v : List Nat)
    (hlo : ∀ l ∈ v, i < l) (hhi : ∀ l ∈ v, l < kNumberOfLabels) :
    ¬ kPrime i ∣ (v.map kPrime).prod := by
  rw [prod_kPrime_eq v hhi, kPrime_eq_kPrimeNat i hi, Int.natCast_dvd_natCast]
  intro h
  obtain ⟨a, ha, hd⟩ := (Prime.dvd_prod_iff (Nat.Prime.prime (kPrimeNat_prime i hi))).1 h
  obtain ⟨l, hl, rfl⟩ := List.mem_map.1 ha
  rw [labelPrime_eq l (hhi l hl)] at hd
  have e := (Nat.prime_dvd_prime_iff_eq (kPrimeNat_prime i hi) (kPrimeNat_prime l (hhi l hl))).1 hd
  have := kPrimeNat_inj i l hi (hhi l hl) e
  have := hlo l hl
  omega

theorem prod_kPrime_ge (v : List Nat) (hv : ∀ l ∈ v, l < kNumberOfLabels) :
    (v.length : Int) + 1 ≤ (v.map kPrime).prod := by
  induction v with
  | nil => simp
  | cons l ls ih =>
    have hl := kPrime_bounds l (hv l (List.mem_cons_self _ _))
    have := ih (fun x hx => hv x (List.mem_cons_of_mem _ hx))
    rw [List.map_cons, List.prod_cons, List.length_cons]
    push_cast
    nlinarith

theorem prod_kPrime_eq_one (v : List Nat) (hv : ∀ l ∈ v, l < kNumberOfLabels)
    (h : (v.map kPrime).prod = 1) : v = [] := by
  have := prod_kPrime_ge v hv
  rw [h] at this
  have h0 : v.length = 0 := by omega
  exact List.length_eq_zero.1 h0

/-- Completeness of the scan: on the product of a sorted label list the loop records the
labels in that order and leaves the remaining value `1`. -/
theorem decodeLoop_sorted (fuel : Nat) : ∀ (i : Nat) (st : DecodeState) (v : List Nat),
    v.Pairwise (· ≤ ·) → (∀ l ∈ v, i ≤ l) → (∀ l ∈ v, l < kNumberOfLabels) →
    st.n = (v.map kPrime).prod → st.k + v.length ≤ kNumberOfFaces →
    v.length + (kNumberOfLabels - i) + 1 ≤ fuel →
    ∃ st', decodeLoop fuel i st = some st' ∧ st'.k = st.k + v.length ∧ st'.n = 1 ∧
      st'.d.v = st.d.v.take st.k ++ v.map (fun l : Nat => (l : Int))
        ++ st.d.v.drop (st.k + v.length) := by
  induction fuel with
  | zero => intro i st v _ _ _ _ _ hf; omega
  | succ fuel ih =>
    intro i st v hs hlo hhi hn hk hf
    rw [decodeLoop]
    by_cases hi : i < kNumberOfLabels
    · simp only [hi, if_true]
      cases v with
      | nil =>
        have hn1 : st.n = 1 := by simpa using hn
        have hp := kPrime_bounds i hi
        have hrem : ¬ Int.tmod st.n (kPrime i) = 0 := by
          rw [hn1, Int.tmod_eq_emod (by norm_num) (by omega)]
          rw [Int.emod_eq_of_lt (by norm_num) (by omega)]
          norm_num
        simp only [hrem, if_false]
        exact ih (i + 1) st [] List.Pairwise.nil (by simp) (by simp) hn hk
          (by simp only [List.length_nil] at hf ⊢; omega)
      | cons l rest =>
        have hrest : ∀ x ∈ rest, x < kNumberOfLabels :=
          fun x hx => hhi x (List.mem_cons_of_mem _ hx)
        rw [List.pairwise_cons] at hs
        by_cases hli : l = i
        · subst hli
          have hp := kPrime_bounds l hi
          have hn' : st.n = kPrime l * (rest.map kPrime).prod := by
            rw [hn, List.map_cons, List.prod_cons]
          have hrem : Int.tmod st.n (kPrime l) = 0 :=
            Int.tmod_eq_zero_of_dvd ⟨_, hn'⟩
          have hquot : Int.tdiv st.n (kPrime l) = (rest.map kPrime).prod := by
            rw [hn']; exact Int.mul_tdiv_cancel_left _ (by omega)
          have hklt : st.k < st.d.v.length := by
            rw [st.d.size]; simp only [List.length_cons] at hk; omega
          simp only [hrem, if_true, hquot]
          by_cases h1 : (rest.map kPrime).prod = 1
          · have hnil := prod_kPrime_eq_one rest hrest h1
            subst hnil
            simp only [List.map_nil, List.prod_nil, if_true]
            refine ⟨_, rfl, by simp, rfl, ?_⟩
            simp only [Die.set, List.map_cons, List.map_nil, List.length_cons, List.length_nil]
            rw [List.set_eq_take_append_cons_drop, if_pos hklt]
            simp
          · simp only [h1, if_false]
            obtain ⟨st', h1', h2', h3', h4'⟩ := ih l
              { d := st.d.set st.k (l : Int), k := st.k + 1, n := (rest.map kPrime).prod }
              rest hs.2 (fun x hx => hs.1 x hx) hrest rfl
              (by simp only [List.length_cons] at hk ⊢; omega)
              (by simp only [List.length_cons] at hf ⊢; omega)
            refine ⟨st', h1', ?_, h3', ?_⟩
            · rw [h2']
              show st.k + 1 + rest.length = st.k + (rest.length + 1)
              omega
            · rw [h4']
              simp only [Die.set, List.map_cons, List.length_cons]
              rw [List.set_eq_take_append_cons_drop, if_pos hklt]
              have e1 : (List.take st.k st.d.v ++ (l : Int) :: List.drop (st.k + 1) st.d.v).take
                  (st.k + 1) = List.take st.k st.d.v ++ [(l : Int)] := by
                rw [List.take_append_eq_append_take]
                simp [List.length_take, Nat.min_eq_left (Nat.le_of_lt hklt)]
              have e2 : (List.take st.k st.d.v ++ (l : Int) :: List.drop (st.k + 1) st.d.v).drop
                  (st.k + 1 + rest.length) = List.drop (st.k + (rest.length + 1)) st.d.v := by
                have a1 : st.k + 1 + rest.length - st.k = rest.length + 1 := by omega
                rw [List.drop_append_eq_append_drop,
                  List.drop_eq_nil_of_le (by rw [List.length_take]; omega), List.nil_append,
                  List.length_take, Nat.min_eq_left (Nat.le_of_lt hklt), a1,
                  List.drop_succ_cons, List.drop_drop]
                congr 1
                omega
              rw [e1, e2]
              simp
        · have hlt : i < l := by
            have := hlo l (List.mem_cons_self _ _)
            omega
          have hlo' : ∀ x ∈ l :: rest, i + 1 ≤ x := by
            intro x hx
            rcases List.mem_cons.1 hx with rfl | hx
            · omega
            · have := hs.1 x hx
              omega
          have hrem : ¬ Int.tmod st.n (kPrime i) = 0 := by
            intro h0
            have hd := Int.dvd_of_tmod_eq_zero h0
            rw [hn] at hd
            exact kPrime_not_dvd i hi (l :: rest) (fun x hx => hlo' x hx) hhi hd
          simp only [hrem, if_false]
          exact ih (i + 1) st (l :: rest) (List.pairwise_cons.2 hs) hlo' hhi hn hk (by omega)
    · simp only [hi, if_false]
      have hnil : v = [] := by
        cases v with
        | nil => rfl
        | cons l rest =>
          have h1 := hlo l (List.mem_cons_self _ _)
          have h2 := hhi l (List.mem_cons_self _ _)
          omega
      subst hnil
      exact ⟨st, rfl, by simp, by simpa using hn, by simp⟩

/-- Soundness of the scan: the starting value is the remaining value times the primes
of the labels recorded on the way. -/
theorem decodeLoop_sound (fuel : Nat) : ∀ (i : Nat) (st st' : DecodeState),
    decodeLoop fuel i st = some st' →
    ∃ ls : List Nat, (∀ l ∈ ls, l < kNumberOfLabels) ∧ st'.k = st.k + ls.length
      ∧ st.n = st'.n * (ls.map kPrime).prod := by
  induction fuel with
  | zero => intro i st st' h; simp [decodeLoop] at h
  | succ fuel ih =>
    intro i st st' h
    rw [decodeLoop] at h
    by_cases hi : i < kNumberOfLabels
    · simp only [hi, if_true] at h
      by_cases hrem : Int.tmod st.n (kPrime i) = 0
      · simp only [hrem, if_true] at h
        have hmul : kPrime i * Int.tdiv st.n (kPrime i) = st.n :=
          Int.mul_tdiv_cancel_of_tmod_eq_zero hrem
        by_cases h1 : Int.tdiv st.n (kPrime i) = 1
        · simp only [h1, if_true, Option.some.injEq] at h
          subst h
          refine ⟨[i], by simpa using hi, by simp, ?_⟩
          simp only [List.map_cons, List.map_nil, List.prod_cons, List.prod_nil]
          rw [← hmul, h1]; ring
        · simp only [h1, if_false] at h
          obtain ⟨ls, hl, hk, hn⟩ := ih i _ st' h
          refine ⟨i :: ls, ?_, ?_, ?_⟩
          · intro x hx
            rcases List.mem_cons.1 hx with rfl | hx
            · exact hi
            · exact hl x hx
          · rw [hk]; simp only [List.length_cons]; omega
          · simp only at hn
            rw [List.map_cons, List.prod_cons, ← hmul, hn]; ring
      · simp only [hrem, if_false] at h
        exact ih (i + 1) st st' h
    · simp only [hi, if_false, Option.some.injEq] at h
      subst h
      exact ⟨[], by simp, by simp, by simp⟩

/-- The fuel of `DecodeDie` is enough: from a nonzero value the loop always exits. -/
theorem decodeLoop_terminates (fuel : Nat) : ∀ (i : Nat) (st : DecodeState),
    st.n ≠ 0 → st.n.natAbs + (kNumberOfLabels - i) + 1 ≤ fuel →
    ∃ st', decodeLoop fuel i st = some st' := by
  induction fuel with
  | zero => intro i st _ hf; omega
  | succ fuel ih =>
    intro i st hn hf
    rw [decodeLoop]
    by_cases hi : i < kNumberOfLabels
    · simp only [hi, if_true]
      by_cases hrem : Int.tmod st.n (kPrime i) = 0
      · simp only [hrem, if_true]
        by_cases h1 : Int.tdiv st.n (kPrime i) = 1
        · simp only [h1, if_true]
          exact ⟨_, rfl⟩
        · simp only [h1, if_false]
          have hp := kPrime_bounds i hi
          have hmul : kPrime i * Int.tdiv st.n (kPrime i) = st.n :=
            Int.mul_tdiv_cancel_of_tmod_eq_zero hrem
          have hq0 : Int.tdiv st.n (kPrime i) ≠ 0 := by
            intro h0
            rw [h0, mul_zero] at hmul
            exact hn hmul.symm
          have hlt : (Int.tdiv st.n (kPrime i)).natAbs < st.n.natAbs := by
            have hm : st.n.natAbs = (kPrime i).natAbs * (Int.tdiv st.n (kPrime i)).natAbs := by
              rw [← Int.natAbs_mul, hmul]
            have hq : 0 < (Int.tdiv st.n (kPrime i)).natAbs := Int.natAbs_pos.2 hq0
            have hp2 : 2 ≤ (kPrime i).natAbs := by omega
            rw [hm]
            nlinarith
          apply ih
          · exact hq0
          · simp only
            omega
      · simp only [hrem, if_false]
        apply ih _ _ hn
        omega
    · simp only [hi, if_false]
      exact ⟨_, rfl⟩

/-- On every nonzero argument `DecodeDie` returns or fails an assertion; it never runs
out of fuel. -/
theorem DecodeDie_terminates (n : Int) (hn : n ≠ 0) : DecodeDie n ≠ .error .nontermination := by
  obtain ⟨st', h⟩ := decodeLoop_terminates (decodeFuel n) 0
    { d := Die.zero, k := 0, n := n } hn (by unfold decodeFuel; simp)
  unfold DecodeDie
  rw [h]
  simp only
  split_ifs <;> simp

/-- On the encoding of a sorted sequence of six labels `DecodeDie` returns that sequence. -/
theorem DecodeDie_of_sorted (v : List Nat) (hlen : v.length = kNumberOfFaces)
    (hv : ∀ l ∈ v, l < kNumberOfLabels) (hs : v.Pairwise (· ≤ ·)) :
    ∃ d, DecodeDie (v.map kPrime).prod = .ok d ∧ d.v = v.map (fun l : Nat => (l : Int)) := by
  have hge := prod_kPrime_ge v hv
  have hfuel : v.length + (kNumberOfLabels - 0) + 1 ≤ decodeFuel (v.map kPrime).prod := by
    unfold decodeFuel
    rw [hlen] at hge ⊢
    unfold kNumberOfFaces at hge ⊢
    omega
  obtain ⟨st', h1, h2, h3, h4⟩ := decodeLoop_sorted (decodeFuel (v.map kPrime).prod) 0
    { d := Die.zero, k := 0, n := (v.map kPrime).prod } v hs (fun _ _ => Nat.zero_le _) hv rfl
    (by simp [hlen]) hfuel
  refine ⟨st'.d, ?_, ?_⟩
  · unfold DecodeDie
    rw [h1]
    have hk : st'.k = kNumberOfFaces := by rw [h2, hlen]; simp
    simp only [hk, h3, if_true]
  · rw [h4]
    have hz : Die.zero.v.length = kNumberOfFaces := Die.zero.size
    simp only [List.take_zero, List.nil_append, Nat.zero_add, hlen]
    rw [List.drop_eq_nil_of_le (by rw [hz]), List.append_nil]

theorem map_kPrime_cast (v : List Nat) :
    (v.map (fun l : Nat => (l : Int))).map (fun x : Int => kPrime x.toNat) = v.map kPrime := by
  rw [List.map_map]
  apply List.map_congr_left
  intro l _
  simp

/-- On every encoding of six labels `DecodeDie` returns the sorted label sequence. -/
theorem DecodeDie_of_IsEnc (n : Int) (h : IsEnc 6 n) :
    ∃ (d : Die) (w : List Nat), DecodeDie n = .ok d ∧ d.v = w.map (fun l : Nat => (l : Int))
      ∧ w.length = 6 ∧ (∀ l ∈ w, l < kNumberOfLabels) ∧ w.Pairwise (· ≤ ·)
      ∧ n = (w.map kPrime).prod := by
  obtain ⟨v, hlen, hv, rfl⟩ := h
  have hp := List.perm_insertionSort (· ≤ ·) v
  have hsort : (v.insertionSort (· ≤ ·)).Pairwise (· ≤ ·) := List.sorted_insertionSort (· ≤ ·) v
  have hw : ∀ l ∈ v.insertionSort (· ≤ ·), l < kNumberOfLabels :=
    fun l hl => hv l (hp.mem_iff.1 hl)
  have hlen' : (v.insertionSort (· ≤ ·)).length = 6 := by rw [hp.length_eq, hlen]
  have hprod : (v.map kPrime).prod = ((v.insertionSort (· ≤ ·)).map kPrime).prod :=
    ((hp.map kPrime).prod_eq).symm
  obtain ⟨d, hd, hdv⟩ := DecodeDie_of_sorted (v.insertionSort (· ≤ ·)) hlen' hw hsort
  rw [← hprod] at hd
  exact ⟨d, v.insertionSort (· ≤ ·), hd, hdv, hlen', hw, hsort, hprod⟩

/-- A returned die certifies that the argument encodes six labels. -/
theorem IsEnc_of_DecodeDie (n : Int) (d : Die) (h : DecodeDie n = .ok d) : IsEnc 6 n := by
  unfold DecodeDie at h
  cases hl : decodeLoop (decodeFuel n) 0 { d := Die.zero, k := 0, n := n } with
  | none => rw [hl] at h; simp at h
  | some st =>
    rw [hl] at h
    simp only at h
    by_cases hk : st.k = kNumberOfFaces
    · by_cases hn : st.n = 1
      · obtain ⟨ls, hls, hk', hn'⟩ := decodeLoop_sound _ _ _ _ hl
        simp only at hk' hn'
        refine ⟨ls, ?_, hls, ?_⟩
        · rw [hk] at hk'; unfold kNumberOfFaces at hk'; omega
        · rw [hn', hn]; ring
      · simp [hk, hn] at h
    · simp [hk] at h

/-- On a generated integer `DecodeDie` returns, and the die holds six labels below seven
whose primes multiply to the integer. -/
theorem DecodeDie_generated (n : Int) (h : n ∈ GenerateDice []) :
    ∃ d, DecodeDie n = .ok d ∧ d.v.length = 6 ∧ (∀ x ∈ d.v, 0 ≤ x ∧ x < 7)
      ∧ (d.v.map (fun x : Int => kPrime x.toNat)).prod = n := by
  obtain ⟨d, w, hd, hdv, _, hw, _, hn⟩ := DecodeDie_of_IsEnc n ((mem_GenerateDice n).1 h)
  refine ⟨d, hd, d.size, ?_, ?_⟩
  · intro x hx
    rw [hdv] at hx
    obtain ⟨l, hl, rfl⟩ := List.mem_map.1 hx
    have := hw l hl
    unfold kNumberOfLabels at this
    omega
  · rw [hdv, map_kPrime_cast, hn]

/-- C1 (round trip): for every `n` in the generated set, `DecodeDie n` returns a die of six
labels, each in `[0,7)`, whose primes `kPrime[v[0]] * ... * kPrime[v[5]]` multiply to `n`. -/
theorem DecodeDie_roundtrip (n : Int) (h : n ∈ GenerateDice []) :
    ∃ d, DecodeDie n = .ok d ∧ d.v.length = 6 ∧ (∀ x ∈ d.v, 0 ≤ x ∧ x < 7)
      ∧ (d.v.map (fun x : Int => kPrime x.toNat)).prod = n :=
  DecodeDie_generated n h

/-- Witness of C1 at `64 = 2^6`. -/
theorem DecodeDie_roundtrip_witness :
    (64 : Int) ∈ GenerateDice [] ∧ ∃ d, DecodeDie 64 = .ok d ∧ d.v.length = 6
      ∧ (∀ x ∈ d.v, 0 ≤ x ∧ x < 7)
      ∧ (d.v.map (fun x : Int => kPrime x.toNat)).prod = 64 :=
  ⟨(mem_GenerateDice 64).2 ⟨[0, 0, 0, 0, 0, 0], rfl, by decide, by decide⟩,
   DecodeDie_roundtrip 64
     ((mem_GenerateDice 64).2 ⟨[0, 0, 0, 0, 0, 0], rfl, by decide, by decide⟩)⟩

/-- C9 (the assertions as a membership test): for `n ≥ 1`, `DecodeDie n` passes both
assertions and returns exactly when `n` is in the generated set; in particular no
assertion fires on a generated integer. -/
theorem DecodeDie_ok_iff (n : Int) (_hn : 1 ≤ n) :
    ((∃ d, DecodeDie n = .ok d) ↔ n ∈ GenerateDice [])
      ∧ (n ∈ GenerateDice [] → DecodeDie n ≠ .error .assertion) := by
  have hback : n ∈ GenerateDice [] → ∃ d, DecodeDie n = .ok d := by
    intro h
    obtain ⟨d, hd, _⟩ := DecodeDie_generated n h
    exact ⟨d, hd⟩
  refine ⟨⟨?_, hback⟩, ?_⟩
  · rintro ⟨d, hd⟩
    exact (mem_GenerateDice n).2 (IsEnc_of_DecodeDie n d hd)
  · intro h
    obtain ⟨d, hd⟩ := hback h
    rw [hd]
    simp

/-- Witness of C9 at `n = 64`. -/
theorem DecodeDie_ok_iff_witness :
    (1 : Int) ≤ 64 ∧ (((∃ d, DecodeDie 64 = .ok d) ↔ (64 : Int) ∈ GenerateDice [])
      ∧ ((64 : Int) ∈ GenerateDice [] → DecodeDie 64 ≠ .error .assertion)) :=
  ⟨by decide, DecodeDie_ok_iff 64 (by decide)⟩

/-! ## Size of the universe -/

/-- A monadic fold whose steps all return is a pure fold. -/
theorem foldlM_ok {σ α : Type} (f : σ → α → Except Fault σ) (g : σ → α → σ) (l : List α) :
    ∀ s : σ, (∀ s, ∀ x ∈ l, f s x = .ok (g s x)) → l.foldlM f s = .ok (l.foldl g s) := by
  induction l with
  | nil => intro s _; rfl
  | cons x xs ih =>
    intro s h
    rw [List.foldlM_cons, h s x (List.mem_cons_self _ _)]
    exact ih (g s x) (fun s y hy => h s y (List.mem_cons_of_mem _ hy))

theorem foldl_append_singleton {α β : Type} (g : α → β) (l : List α) (acc : List β) :
    l.foldl (fun dice n => dice ++ [g n]) acc = acc ++ l.map g := by
  induction l generalizing acc with
  | nil => simp
  | cons x xs ih => rw [List.foldl_cons, ih]; simp

theorem DecodeDie_eq_dieOf (n : Int) (h : n ∈ GenerateDice []) : DecodeDie n = .ok (dieOf n) := by
  obtain ⟨d, hd, _⟩ := DecodeDie_generated n h
  unfold dieOf
  rw [hd]

/-- The dice vector of `main`: one decoded die per generated integer, in increasing order
of the integers. -/
theorem mainDice_eq : mainDice = .ok ((GenerateDice []).map dieOf) := by
  unfold mainDice
  rw [foldlM_ok _ (fun dice n => dice ++ [dieOf n])]
  · rw [foldl_append_singleton, List.nil_append]
  · intro s x hx
    rw [DecodeDie_eq_dieOf x hx]
    rfl

theorem encodeSym_coe (ls : List (Fin 7)) (h : Multiset.card (ls : Multiset (Fin 7)) = 6) :
    encodeSym ⟨(ls : Multiset (Fin 7)), h⟩ = ((ls.map (fun i : Fin 7 => i.1)).map kPrime).prod := by
  unfold encodeSym
  simp [List.map_map, Function.comp_def]

theorem encodeSym_injective : Function.Injective encodeSym := by
  rintro ⟨ms, hs⟩ ⟨mt, ht⟩ h
  induction ms using Quotient.inductionOn with
  | _ ls =>
    induction mt using Quotient.inductionOn with
    | _ lt =>
      have hs' : Multiset.card (ls : Multiset (Fin 7)) = 6 := hs
      have ht' : Multiset.card (lt : Multiset (Fin 7)) = 6 := ht
      have h' : encodeSym ⟨(ls : Multiset (Fin 7)), hs'⟩ = encodeSym ⟨(lt : Multiset (Fin 7)), ht'⟩ := h
      rw [encodeSym_coe, encodeSym_coe] at h'
      have hb : ∀ (l : List (Fin 7)), ∀ x ∈ l.map (fun i : Fin 7 => i.1), x < kNumberOfLabels := by
        intro l x hx
        obtain ⟨i, _, rfl⟩ := List.mem_map.1 hx
        exact i.2
      have hperm := (prod_kPrime_eq_iff_perm _ _ (hb ls) (hb lt)).1 h'
      have e3 : Multiset.map (fun i : Fin 7 => i.1) (ls : Multiset (Fin 7))
          = Multiset.map (fun i : Fin 7 => i.1) lt := by
        rw [Multiset.map_coe, Multiset.map_coe]
        exact Multiset.coe_eq_coe.2 hperm
      have e4 : (ls : Multiset (Fin 7)) = lt :=
        Multiset.map_injective (fun a b hab => Fin.ext hab) e3
      exact Subtype.ext e4

theorem IsEnc_iff_encodeSym (n : Int) : IsEnc 6 n ↔ ∃ s, encodeSym s = n := by
  constructor
  · rintro ⟨v, hlen, hv, rfl⟩
    have hcard : Multiset.card ((v.pmap (fun l h => (⟨l, h⟩ : Fin 7)) hv : List (Fin 7)) :
        Multiset (Fin 7)) = 6 := by
      simp [hlen]
    refine ⟨⟨_, hcard⟩, ?_⟩
    rw [encodeSym_coe]
    congr 2
    rw [List.map_pmap]
    simp
  · rintro ⟨⟨ms, hs⟩, rfl⟩
    induction ms using Quotient.inductionOn with
    | _ ls =>
      have hs' : Multiset.card (ls : Multiset (Fin 7)) = 6 := hs
      refine ⟨ls.map (fun i : Fin 7 => i.1), ?_, ?_, ?_⟩
      · simpa using hs'
      · intro x hx
        obtain ⟨i, _, rfl⟩ := List.mem_map.1 hx
        exact i.2
      · exact encodeSym_coe ls hs'

/-- The generated set has `C(12,6) = 924` elements. -/
theorem GenerateDice_length : (GenerateDice []).length = 924 := by
  have hnd : (GenerateDice []).Nodup :=
    GenerateDice_sorted.imp (fun h => ne_of_lt h)
  have himg : (GenerateDice []).toFinset = Finset.univ.image encodeSym := by
    ext n
    rw [List.mem_toFinset, mem_GenerateDice, IsEnc_iff_encodeSym]
    simp
  rw [← List.toFinset_card_of_nodup hnd, himg,
    Finset.card_image_of_injective _ encodeSym_injective, Finset.card_univ,
    Sym.card_sym_eq_multichoose, Fintype.card_fin, Nat.multichoose_eq]
  decide

/-- C2 (universe size): the generated set has exactly `C(12,6) = 924` distinct elements,
and the vector `dice` built in `main` has length 924. -/
theorem universe_size :
    (GenerateDice []).length = Nat.choose 12 6 ∧ Nat.choose 12 6 = 924
      ∧ (GenerateDice []).Nodup
      ∧ ∃ dice, mainDice = .ok dice ∧ dice.length = 924 := by
  have h924 : Nat.choose 12 6 = 924 := by decide
  refine ⟨by rw [h924]; exact GenerateDice_length, h924,
    GenerateDice_sorted.imp (fun h => ne_of_lt h), _, mainDice_eq, ?_⟩
  rw [List.length_map]
  exact GenerateDice_length

/-! ## The nested loops as one pass over the tuples -/

theorem Quadruple_eq (a b c d : Nat) (ha : a < 65536) (hb : b < 65536) (hc : c < 65536)
    (hd : d < 65536) :
    Quadruple (a : Int) (b : Int) (c : Int) (d : Int) = .ok (quadKey a b c d) := by
  unfold Quadruple quadKey
  have h1 : (0 : Int) ≤ a ∧ (a : Int) < 0x10000 := by constructor <;> omega
  have h2 : (0 : Int) ≤ b ∧ (b : Int) < 0x10000 := by constructor <;> omega
  have h3 : (0 : Int) ≤ c ∧ (c : Int) < 0x10000 := by constructor <;> omega
  have h4 : (0 : Int) ≤ d ∧ (d : Int) < 0x10000 := by constructor <;> omega
  rw [if_pos h1, if_pos h2, if_pos h3, if_pos h4]
  simp only [Int.toNat_ofNat]

theorem report_eq (a b c d : Nat) (ha : a < 65536) (hb : b < 65536) (hc : c < 65536)
    (hd : d < 65536) (st : SearchState) :
    report a b c d st = .ok (reportPure a b c d st) := by
  unfold report reportPure
  rw [Quadruple_eq a b c d ha hb hc hd, Quadruple_eq b c d a hb hc hd ha,
    Quadruple_eq c d a b hc hd ha hb, Quadruple_eq d a b c hd ha hb hc]
  simp only [bind, Except.bind, pure, Except.pure]
  by_cases h : quadKey a b c d ∈ st.found
  · rw [if_pos h, if_pos h]
  · rw [if_neg h, if_neg h]

theorem foldl_id_of_forall {σ α : Type} (f : σ → α → σ) (l : List α) (s : σ)
    (h : ∀ s, ∀ x ∈ l, f s x = s) : l.foldl f s = s := by
  induction l generalizing s with
  | nil => rfl
  | cons x xs ih =>
    rw [List.foldl_cons, h s x (List.mem_cons_self _ _)]
    exact ih s (fun s y hy => h s y (List.mem_cons_of_mem _ hy))

theorem foldl_flatMap {σ α β : Type} (f : σ → β → σ) (g : α → List β) (l : List α) (s : σ) :
    (l.flatMap g).foldl f s = l.foldl (fun s a => (g a).foldl f s) s := by
  induction l generalizing s with
  | nil => rfl
  | cons x xs ih => rw [List.flatMap_cons, List.foldl_append, ih, List.foldl_cons]

theorem loopD_eq (dice : List Die) (a b c d : Nat) (ha : a < 65536) (hb : b < 65536)
    (hc : c < 65536) (hd : d < 65536) (hab : PassAB dice a b) (hbc : PassBC dice a b c)
    (st : SearchState) :
    loopD dice a b c (Odds (dieAt dice a) (dieAt dice b)).1 (Odds (dieAt dice a) (dieAt dice b)).2
      (Odds (dieAt dice b) (dieAt dice c)).1 (Odds (dieAt dice b) (dieAt dice c)).2 st d
      = .ok (flatStep dice st (a, b, c, d)) := by
  unfold loopD flatStep
  by_cases hp : PassCD dice a b c d
  · have hP : Passes dice (a, b, c, d) := ⟨hab, hbc, hp⟩
    obtain ⟨h1, h2, h3, h4, h5, h6, h7, h8, h9, h10, h11, h12⟩ := hp
    rw [if_pos hP, if_neg (by omega)]
    simp only []
    rw [if_neg (by omega), if_neg (by omega), if_neg (by simp only [ne_eq, not_not]; exact h7),
      if_neg (by omega), if_neg (by omega), if_neg (by simp only [ne_eq, not_not]; exact h11),
      if_neg (by simp only [ne_eq, not_not]; exact h12)]
    exact report_eq a b c d ha hb hc hd st
  · have hP : ¬ Passes dice (a, b, c, d) := fun h => hp h.2.2
    rw [if_neg hP]
    unfold PassCD at hp
    simp only []
    split_ifs <;> first | (exfalso; apply hp; refine ⟨?_, ?_, ?_, ?_, ?_, ?_, ?_, ?_, ?_, ?_, ?_, ?_⟩ <;> omega) | rfl

theorem loopC_eq (dice : List Die) (hn : dice.length ≤ 65536) (a b c : Nat)
    (ha : a < dice.length) (hb : b < dice.length) (hc : c < dice.length)
    (hab : PassAB dice a b) (st : SearchState) :
    loopC dice a b (Odds (dieAt dice a) (dieAt dice b)).1 (Odds (dieAt dice a) (dieAt dice b)).2
        st c
      = .ok ((List.range dice.length).foldl (fun s d => flatStep dice s (a, b, c, d)) st) := by
  unfold loopC
  by_cases hp : PassBC dice a b c
  · obtain ⟨h1, h2, h3, h4, h5, h6⟩ := id hp
    rw [if_neg (by omega)]
    simp only []
    rw [if_neg (by omega), if_neg (by omega), if_neg (by simp only [ne_eq, not_not]; exact h6)]
    apply foldlM_ok
    intro s d hd
    exact loopD_eq dice a b c d (by omega) (by omega) (by omega)
      (by have := List.mem_range.1 hd; omega) hab hp s
  · have hid : (List.range dice.length).foldl (fun s d => flatStep dice s (a, b, c, d)) st = st := by
      apply foldl_id_of_forall
      intro s d _
      unfold flatStep
      rw [if_neg (fun h => hp h.2.1)]
    rw [hid]
    unfold PassBC at hp
    simp only []
    split_ifs <;> first | (exfalso; apply hp; refine ⟨?_, ?_, ?_, ?_, ?_, ?_⟩ <;> omega) | rfl

theorem loopB_eq (dice : List Die) (hn : dice.length ≤ 65536) (a b : Nat)
    (ha : a < dice.length) (hb : b < dice.length) (st : SearchState) :
    loopB dice a st b
      = .ok ((List.range dice.length).foldl (fun s c =>
          (List.range dice.length).foldl (fun s d => flatStep dice s (a, b, c, d)) s) st) := by
  unfold loopB
  by_cases hp : PassAB dice a b
  · obtain ⟨h1, h2, h3, h4⟩ := id hp
    rw [if_neg h1]
    simp only []
    rw [if_neg (by omega), if_neg (by omega)]
    apply foldlM_ok
    intro s c hc
    exact loopC_eq dice hn a b c ha hb (List.mem_range.1 hc) hp s
  · have hid : (List.range dice.length).foldl (fun s c =>
        (List.range dice.length).foldl (fun s d => flatStep dice s (a, b, c, d)) s) st = st := by
      apply foldl_id_of_forall
      intro s c _
      apply foldl_id_of_forall
      intro s d _
      unfold flatStep
      rw [if_neg (fun h => hp h.1)]
    rw [hid]
    unfold PassAB at hp
    simp only []
    split_ifs <;> first | (exfalso; apply hp; refine ⟨?_, ?_, ?_, ?_⟩ <;> omega) | rfl

/-- The nested loops of `main` return, and return what the single pass over `allTuples`
computes, whenever the indices fit the assertions of `Quadruple`. -/
theorem search_eq_flatSearch (dice : List Die) (hn : dice.length ≤ 65536) :
    search dice = .ok (flatSearch dice) := by
  unfold search flatSearch allTuples
  rw [foldl_flatMap]
  apply foldlM_ok
  intro s a ha
  unfold loopA
  rw [foldl_flatMap]
  apply foldlM_ok
  intro s b hb
  rw [foldl_flatMap]
  rw [loopB_eq dice hn a b (List.mem_range.1 ha) (List.mem_range.1 hb) s]
  congr 1
  apply List.foldl_ext
  intro s c _
  rw [List.foldl_map]

/-! ## Invariants of the search -/

theorem mem_foundInsert (x q : Int) (f : List Int) : x ∈ foundInsert q f ↔ x = q ∨ x ∈ f := by
  unfold foundInsert
  by_cases h : q ∈ f
  · rw [if_pos h]
    constructor
    · exact Or.inr
    · rintro (rfl | h')
      · exact h
      · exact h'
  · rw [if_neg h, List.mem_cons]

theorem reportPure_found_mono (a b c d : Nat) (st : SearchState) (x : Int) (h : x ∈ st.found) :
    x ∈ (reportPure a b c d st).found := by
  unfold reportPure
  by_cases hk : quadKey a b c d ∈ st.found
  · rw [if_pos hk]; exact h
  · rw [if_neg hk]
    simp only [mem_foundInsert, List.mem_cons]
    exact Or.inr (Or.inr (Or.inr (Or.inr h)))

theorem flatStep_found_mono (dice : List Die) (st : SearchState) (t : Nat × Nat × Nat × Nat)
    (x : Int) (h : x ∈ st.found) : x ∈ (flatStep dice st t).found := by
  unfold flatStep
  by_cases hp : Passes dice t
  · rw [if_pos hp]; exact reportPure_found_mono _ _ _ _ st x h
  · rw [if_neg hp]; exact h

theorem foldl_found_mono (dice : List Die) (l : List (Nat × Nat × Nat × Nat)) (st : SearchState)
    (x : Int) (h : x ∈ st.found) : x ∈ (l.foldl (flatStep dice) st).found := by
  induction l generalizing st with
  | nil => exact h
  | cons t ts ih => rw [List.foldl_cons]; exact ih _ (flatStep_found_mono dice st t x h)

/-- After a tuple that passes the filters has been visited, its key is in `found`. -/
theorem flatStep_key_mem (dice : List Die) (st : SearchState) (t : Nat × Nat × Nat × Nat)
    (hp : Passes dice t) : keyOf t ∈ (flatStep dice st t).found := by
  unfold flatStep reportPure
  rw [if_pos hp]
  by_cases hk : quadKey t.1 t.2.1 t.2.2.1 t.2.2.2 ∈ st.found
  · rw [if_pos hk]; exact hk
  · rw [if_neg hk]
    simp only [mem_foundInsert, List.mem_cons]
    exact Or.inr (Or.inr (Or.inr (Or.inl rfl)))

/-- A visit changes `out` only by appending the visited tuple, and only when that tuple
passes the filters and its key is new. -/
theorem flatStep_out (dice : List Die) (st : SearchState) (t t' : Nat × Nat × Nat × Nat)
    (h : t' ∈ (flatStep dice st t).out) :
    t' ∈ st.out ∨ (t' = t ∧ Passes dice t ∧ keyOf t ∉ st.found) := by
  unfold flatStep reportPure at h
  by_cases hp : Passes dice t
  · rw [if_pos hp] at h
    by_cases hk : quadKey t.1 t.2.1 t.2.2.1 t.2.2.2 ∈ st.found
    · rw [if_pos hk] at h; exact Or.inl h
    · rw [if_neg hk] at h
      rcases List.mem_append.1 h with h | h
      · exact Or.inl h
      · exact Or.inr ⟨by simpa using h, hp, hk⟩
  · rw [if_neg hp] at h; exact Or.inl h

theorem mem_rotations_symm (t t' : Nat × Nat × Nat × Nat) (h : t' ∈ rotations t) :
    t ∈ rotations t' := by
  obtain ⟨a, b, c, d⟩ := t
  simp only [rotations, List.mem_cons, List.mem_singleton, List.not_mem_nil, or_false] at h
  rcases h with rfl | rfl | rfl | rfl <;> simp [rotations]

theorem flatStep_inv (dice : List Die) (st : SearchState) (t : Nat × Nat × Nat × Nat)
    (h : SearchInv dice st) : SearchInv dice (flatStep dice st t) := by
  obtain ⟨h1, h2, h3⟩ := h
  unfold flatStep
  by_cases hp : Passes dice t
  · rw [if_pos hp]
    unfold reportPure
    by_cases hk : quadKey t.1 t.2.1 t.2.2.1 t.2.2.2 ∈ st.found
    · rw [if_pos hk]; exact ⟨h1, h2, h3⟩
    · rw [if_neg hk]
      have hnew : ∀ t0 ∈ st.out, t ∉ rotations t0 := by
        intro t0 ht0 hr
        exact hk (h2 t0 ht0 t hr)
      refine ⟨?_, ?_, ?_⟩
      · intro t' ht'
        rcases List.mem_append.1 ht' with ht' | ht'
        · exact h1 t' ht'
        · rw [List.mem_singleton.1 ht']; exact hp
      · intro t' ht' r hr
        simp only [mem_foundInsert, List.mem_cons]
        rcases List.mem_append.1 ht' with ht' | ht'
        · exact Or.inr (Or.inr (Or.inr (Or.inr (h2 t' ht' r hr))))
        · rw [List.mem_singleton.1 ht'] at hr
          simp only [rotations, List.mem_cons, List.mem_singleton, List.not_mem_nil,
            or_false] at hr
          rcases hr with rfl | rfl | rfl | rfl
          · exact Or.inr (Or.inr (Or.inr (Or.inl rfl)))
          · exact Or.inr (Or.inr (Or.inl rfl))
          · exact Or.inr (Or.inl rfl)
          · exact Or.inl rfl
      · rw [List.pairwise_append]
        refine ⟨h3, List.pairwise_singleton _ _, ?_⟩
        intro t0 ht0 t' ht'
        rw [List.mem_singleton.1 ht']
        exact ⟨hnew t0 ht0, fun hr => hnew t0 ht0 (mem_rotations_symm _ _ hr)⟩
  · rw [if_neg hp]; exact ⟨h1, h2, h3⟩

theorem foldl_inv (dice : List Die) (l : List (Nat × Nat × Nat × Nat)) (st : SearchState)
    (h : SearchInv dice st) : SearchInv dice (l.foldl (flatStep dice) st) := by
  induction l generalizing st with
  | nil => exact h
  | cons t ts ih => rw [List.foldl_cons]; exact ih _ (flatStep_inv dice st t h)

/-- The invariant holds when the search returns. -/
theorem flatSearch_inv (dice : List Die) : SearchInv dice (flatSearch dice) := by
  unfold flatSearch
  apply foldl_inv
  exact ⟨by simp, by simp, List.Pairwise.nil⟩

theorem Odds_nonneg (X Y : Die) : 0 ≤ (Odds X Y).1 ∧ 0 ≤ (Odds X Y).2 := by
  rw [Odds_eq_pairCount]
  exact ⟨Int.natCast_nonneg _, Int.natCast_nonneg _⟩

/-- Passing every filter of the loops is satisfying the contract of the search. -/
theorem Passes_iff_Qualifies (dice : List Die) (a b c d : Nat) :
    Passes dice (a, b, c, d) ↔ Qualifies dice a b c d := by
  have n0 := Odds_nonneg (dieAt dice a) (dieAt dice b)
  have n1 := Odds_nonneg (dieAt dice b) (dieAt dice c)
  have n2 := Odds_nonneg (dieAt dice c) (dieAt dice d)
  have n3 := Odds_nonneg (dieAt dice d) (dieAt dice a)
  unfold Passes PassAB PassBC PassCD Qualifies Beats SameRatio
  constructor
  · rintro ⟨⟨p1, p2, p3, p4⟩, ⟨q1, q2, q3, q4, q5, q6⟩,
      ⟨r1, r2, r3, r4, r5, r6, r7, r8, r9, r10, r11, r12⟩⟩
    simp only at p1 p2 p3 p4 q1 q2 q3 q4 q5 q6 r1 r2 r3 r4 r5 r6 r7 r8 r9 r10 r11 r12
    refine ⟨⟨p1, q1, r1, q2, r2, r3⟩, ⟨?_, ?_, p4⟩, ⟨?_, ?_, q5⟩, ⟨?_, ?_, r6⟩, ⟨?_, ?_, r10⟩,
      q6, r7, r11, r12⟩ <;> omega
  · rintro ⟨⟨d1, d2, d3, d4, d5, d6⟩, ⟨a1, a2, a3⟩, ⟨b1, b2, b3⟩, ⟨c1, c2, c3⟩,
      ⟨e1, e2, e3⟩, s1, s2, s3, s4⟩
    refine ⟨⟨d1, ?_, ?_, a3⟩, ⟨d2, d4, ?_, ?_, b3, s1⟩,
      ⟨d3, d5, d6, ?_, ?_, c3, s2, ?_, ?_, e3, s3, s4⟩⟩ <;> simp only <;> omega

/-- C4 (reported tuples satisfy the contract): when the search loops of `main` return on a
dice vector whose indices fit `Quadruple` (the 924 dice of `main` do), every printed tuple
`(a,b,c,d)` has pairwise distinct indices, each of the edges `(a,b)`, `(b,c)`, `(c,d)`,
`(d,a)` has `w1 > 0`, `w2 > 0`, `w1 > w2`, and the four cross-multiplication equalities
of cyclically adjacent edges hold, the closing one `(d,a)`, `(a,b)` included. -/
theorem reported_sound (dice : List Die) (st : SearchState) (hlen : dice.length ≤ 65536)
    (hrun : search dice = .ok st) (a b c d : Nat) (ht : (a, b, c, d) ∈ st.out) :
    Qualifies dice a b c d := by
  rw [search_eq_flatSearch dice hlen] at hrun
  have hst : st = flatSearch dice := by injection hrun with h; exact h.symm
  subst hst
  exact (Passes_iff_Qualifies dice a b c d).1 ((flatSearch_inv dice).1 (a, b, c, d) ht)

/-- Witness of C4: on `sampleDice` the loops print `(0,1,2,3)`, which satisfies the
contract (the odds are `16:14` on every edge). -/
theorem reported_sound_witness :
    search sampleDice
        = .ok { found := [844433520132098, 562954248388609, 281474976907264, 12885032963],
                out := [(0, 1, 2, 3)] }
      ∧ Odds (dieAt sampleDice 0) (dieAt sampleDice 1) = (16, 14)
      ∧ Qualifies sampleDice 0 1 2 3 :=
  ⟨by decide!, by decide,
   reported_sound sampleDice
    { found := [844433520132098, 562954248388609, 281474976907264, 12885032963],
      out := [(0, 1, 2, 3)] } (by decide) (by decide!) 0 1 2 3 (by decide)⟩

/-- C6 (deduplication): when the search loops of `main` return, the keys of all four
rotations of every printed tuple are in `found`, and no two printed tuples are cyclic
rotations of each other. -/
theorem reported_no_rotations (dice : List Die) (st : SearchState)
    (hlen : dice.length ≤ 65536) (hrun : search dice = .ok st) :
    (∀ t ∈ st.out, ∀ r ∈ rotations t, keyOf r ∈ st.found) ∧ st.out.Pairwise NotRotated := by
  rw [search_eq_flatSearch dice hlen] at hrun
  have hst : st = flatSearch dice := by injection hrun with h; exact h.symm
  subst hst
  exact (flatSearch_inv dice).2

/-- Witness of C6 on `sampleDice`: the one printed tuple and the four keys in `found`. -/
theorem reported_no_rotations_witness :
    (∀ t ∈ [((0 : Nat), (1 : Nat), (2 : Nat), (3 : Nat))], ∀ r ∈ rotations t,
        keyOf r ∈ [844433520132098, 562954248388609, 281474976907264, (12885032963 : Int)])
      ∧ [((0 : Nat), (1 : Nat), (2 : Nat), (3 : Nat))].Pairwise NotRotated :=
  reported_no_rotations sampleDice
    { found := [844433520132098, 562954248388609, 281474976907264, 12885032963],
      out := [(0, 1, 2, 3)] } (by decide) (by decide!)

/-! ## The generated set, explicitly -/

theorem increasing_chain (l : List Int) (h : increasing l = true) : l.Chain' (· < ·) := by
  induction l with
  | nil => exact List.chain'_nil
  | cons x xs ih =>
    cases xs with
    | nil => exact List.chain'_singleton x
    | cons y ys =>
      simp only [increasing, Bool.and_eq_true, decide_eq_true_eq] at h
      exact List.chain'_cons.2 ⟨h.1, ih h.2⟩

set_option maxRecDepth 100000 in
theorem generatedList_increasing : increasing generatedList = true := by decide!

set_option maxRecDepth 100000 in
theorem generatedList_length : generatedList.length = 924 := by decide!

set_option maxRecDepth 100000 in
theorem generatedList_decodes : ∀ n ∈ generatedList, decodes n = true := by decide!

theorem generatedList_sorted : generatedList.Pairwise (· < ·) :=
  List.chain'_iff_pairwise.1 (increasing_chain _ generatedList_increasing)

/-- The generated set is the list `generatedList`. -/
theorem GenerateDice_eq : GenerateDice [] = generatedList := by
  have hsub : generatedList ⊆ GenerateDice [] := by
    intro n hn
    have hd := generatedList_decodes n hn
    unfold decodes at hd
    cases hdec : DecodeDie n with
    | error e => rw [hdec] at hd; simp at hd
    | ok d => exact (mem_GenerateDice n).2 (IsEnc_of_DecodeDie n d hdec)
  have hnd : generatedList.Nodup := generatedList_sorted.imp (fun h => ne_of_lt h)
  have hperm : generatedList.Perm (GenerateDice []) :=
    (hnd.subperm hsub).perm_of_length_le
      (by rw [GenerateDice_length, generatedList_length])
  exact (List.eq_of_perm_of_sorted hperm generatedList_sorted GenerateDice_sorted).symm

/-! ## Order of the visits and skipped tuples -/

theorem mainDiceList_length : mainDiceList.length = 924 := by
  unfold mainDiceList
  rw [List.length_map]
  exact GenerateDice_length

theorem bind_ok_eq {α β : Type} (x : Except Fault α) (a : α) (f : α → Except Fault β)
    (h : x = .ok a) : (x >>= f) = f a := by
  subst h; rfl

/-- The program `main` returns the state computed by the single pass over the tuples of
its 924 dice. -/
theorem main_eq : main = .ok (flatSearch mainDiceList) :=
  (bind_ok_eq mainDice mainDiceList search mainDice_eq).trans
    (search_eq_flatSearch mainDiceList (le_of_eq_of_le mainDiceList_length (by decide)))

theorem mem_allTuples (n : Nat) (t : Nat × Nat × Nat × Nat) :
    t ∈ allTuples n ↔ t.1 < n ∧ t.2.1 < n ∧ t.2.2.1 < n ∧ t.2.2.2 < n := by
  obtain ⟨a, b, c, d⟩ := t
  unfold allTuples
  simp only [List.mem_flatMap, List.mem_map, List.mem_range, Prod.mk.injEq]
  constructor
  · rintro ⟨a', ha, b', hb, c', hc, d', hd, rfl, rfl, rfl, rfl⟩
    exact ⟨ha, hb, hc, hd⟩
  · rintro ⟨ha, hb, hc, hd⟩
    exact ⟨a, ha, b, hb, c, hc, d, hd, rfl, rfl, rfl, rfl⟩

/-- The nested loops visit the tuples in lexicographic order. -/
theorem allTuples_pairwise (n : Nat) : (allTuples n).Pairwise visitedBefore := by
  unfold allTuples
  rw [List.pairwise_flatMap]
  refine ⟨fun a _ => ?_, (List.pairwise_lt_range n).imp ?_⟩
  · rw [List.pairwise_flatMap]
    refine ⟨fun b _ => ?_, (List.pairwise_lt_range n).imp ?_⟩
    · rw [List.pairwise_flatMap]
      refine ⟨fun c _ => ?_, (List.pairwise_lt_range n).imp ?_⟩
      · rw [List.pairwise_map]
        refine (List.pairwise_lt_range n).imp ?_
        intro d1 d2 h
        exact Or.inr ⟨rfl, Or.inr ⟨rfl, Or.inr ⟨rfl, h⟩⟩⟩
      · intro c1 c2 h x hx y hy
        simp only [List.mem_map, List.mem_range] at hx hy
        obtain ⟨d1, _, rfl⟩ := hx
        obtain ⟨d2, _, rfl⟩ := hy
        exact Or.inr ⟨rfl, Or.inr ⟨rfl, Or.inl h⟩⟩
    · intro b1 b2 h x hx y hy
      simp only [List.mem_flatMap, List.mem_map, List.mem_range] at hx hy
      obtain ⟨c1, _, d1, _, rfl⟩ := hx
      obtain ⟨c2, _, d2, _, rfl⟩ := hy
      exact Or.inr ⟨rfl, Or.inl h⟩
  · intro a1 a2 h x hx y hy
    simp only [List.mem_flatMap, List.mem_map, List.mem_range] at hx hy
    obtain ⟨b1, _, c1, _, d1, _, rfl⟩ := hx
    obtain ⟨b2, _, c2, _, d2, _, rfl⟩ := hy
    exact Or.inl h

theorem visitedBefore_irrefl (t : Nat × Nat × Nat × Nat) : ¬ visitedBefore t t := by
  unfold visitedBefore
  omega

theorem visitedBefore_asymm (s t : Nat × Nat × Nat × Nat) (h : visitedBefore s t) :
    ¬ visitedBefore t s := by
  unfold visitedBefore at h ⊢
  omega

/-- In a list ordered by `visitedBefore`, what is visited before `t` lies in the part of the
list in front of `t`. -/
theorem split_at_visit (l : List (Nat × Nat × Nat × Nat)) (hl : l.Pairwise visitedBefore)
    (t t' : Nat × Nat × Nat × Nat) (ht : t ∈ l) (ht' : t' ∈ l) (h : visitedBefore t' t) :
    ∃ l1 l2, l = l1 ++ t :: l2 ∧ t' ∈ l1 ∧ t ∉ l1 := by
  obtain ⟨l1, l2, rfl⟩ := List.mem_iff_append.1 ht
  rw [List.pairwise_append, List.pairwise_cons] at hl
  obtain ⟨_, ⟨h2, _⟩, h3⟩ := hl
  refine ⟨l1, l2, rfl, ?_, ?_⟩
  · rcases List.mem_append.1 ht' with h' | h'
    · exact h'
    · rcases List.mem_cons.1 h' with rfl | h'
      · exact absurd h (visitedBefore_irrefl _)
      · exact absurd (h2 t' h') (visitedBefore_asymm _ _ h)
  · intro hin
    exact visitedBefore_irrefl t (h3 t hin t (List.mem_cons_self _ _))

theorem foldl_key_mem (dice : List Die) (l : List (Nat × Nat × Nat × Nat)) (st : SearchState)
    (t : Nat × Nat × Nat × Nat) (ht : t ∈ l) (hp : Passes dice t) :
    keyOf t ∈ (l.foldl (flatStep dice) st).found := by
  induction l generalizing st with
  | nil => simp at ht
  | cons x xs ih =>
    rw [List.foldl_cons]
    rcases List.mem_cons.1 ht with rfl | ht
    · exact foldl_found_mono dice xs _ _ (flatStep_key_mem dice st t hp)
    · exact ih _ ht

theorem foldl_out_subset (dice : List Die) (l : List (Nat × Nat × Nat × Nat))
    (st : SearchState) (t : Nat × Nat × Nat × Nat)
    (h : t ∈ (l.foldl (flatStep dice) st).out) : t ∈ st.out ∨ t ∈ l := by
  induction l generalizing st with
  | nil => exact Or.inl h
  | cons x xs ih =>
    rw [List.foldl_cons] at h
    rcases ih _ h with h' | h'
    · rcases flatStep_out dice st x t h' with h'' | ⟨rfl, _, _⟩
      · exact Or.inl h''
      · exact Or.inr (List.mem_cons_self _ _)
    · exact Or.inr (List.mem_cons_of_mem _ h')

theorem foldl_skips (dice : List Die) (l : List (Nat × Nat × Nat × Nat)) (st : SearchState)
    (t : Nat × Nat × Nat × Nat) (hk : keyOf t ∈ st.found) (ho : t ∉ st.out) :
    t ∉ (l.foldl (flatStep dice) st).out := by
  induction l generalizing st with
  | nil => exact ho
  | cons x xs ih =>
    rw [List.foldl_cons]
    apply ih _ (flatStep_found_mono dice st x _ hk)
    intro h
    rcases flatStep_out dice st x t h with h' | ⟨rfl, _, h'⟩
    · exact ho h'
    · exact h' hk

/-- A tuple is never printed when a tuple with the same key that passes the filters is
visited before it. -/
theorem not_reported_of_earlier_key (dice : List Die) (t t' : Nat × Nat × Nat × Nat)
    (ht : t ∈ allTuples dice.length) (ht' : t' ∈ allTuples dice.length)
    (hv : visitedBefore t' t) (hp : Passes dice t') (hk : keyOf t' = keyOf t) :
    t ∉ (flatSearch dice).out := by
  obtain ⟨l1, l2, hl, h1, h2⟩ :=
    split_at_visit _ (allTuples_pairwise dice.length) t t' ht ht' hv
  unfold flatSearch
  rw [hl, List.foldl_append]
  apply foldl_skips
  · rw [← hk]
    exact foldl_key_mem dice l1 _ t' h1 hp
  · intro h
    rcases foldl_out_subset dice l1 _ t h with h' | h'
    · simp at h'
    · exact h2 h'

theorem mainDiceList_eq : mainDiceList = generatedList.map dieOf := by
  unfold mainDiceList
  rw [GenerateDice_eq]

set_option maxRecDepth 100000 in
theorem cycle184_passes :
    Passes (generatedList.map dieOf) (184, 229, 255, 234)
      ∧ Passes (generatedList.map dieOf) (184, 186, 255, 234)
      ∧ Passes (generatedList.map dieOf) (229, 239, 234, 184)
      ∧ Passes (generatedList.map dieOf) (255, 188, 184, 229)
      ∧ Passes (generatedList.map dieOf) (234, 140, 229, 255) := by
  decide!

set_option maxRecDepth 100000 in
theorem cycle184_faces :
    (dieAt (generatedList.map dieOf) 184).v = [0, 0, 2, 3, 3, 4]
      ∧ (dieAt (generatedList.map dieOf) 229).v = [0, 2, 2, 2, 2, 5]
      ∧ (dieAt (generatedList.map dieOf) 255).v = [0, 1, 1, 2, 5, 6]
      ∧ (dieAt (generatedList.map dieOf) 234).v = [0, 0, 2, 2, 5, 5] := by
  decide!

/-- C5 fails on `main`: the dice with indices 184, 229, 255, 234 (faces `0 0 2 3 3 4`,
`0 2 2 2 2 5`, `0 1 1 2 5 6`, `0 0 2 2 5 5`) satisfy the contract as the tuple
`(184,229,255,234)`, with odds `16:14` on each edge, yet `main` prints none of the four
rotations of this tuple: each rotation `(x,y,z,w)` is visited after a passing tuple
`(x,y0,z,w)` with `y0 < y`, and `Quadruple` gives both the same key. -/
theorem skipped_cycle :
    ∃ st, main = .ok st
      ∧ Qualifies mainDiceList 184 229 255 234
      ∧ (dieAt mainDiceList 184).v = [0, 0, 2, 3, 3, 4]
      ∧ (dieAt mainDiceList 229).v = [0, 2, 2, 2, 2, 5]
      ∧ (dieAt mainDiceList 255).v = [0, 1, 1, 2, 5, 6]
      ∧ (dieAt mainDiceList 234).v = [0, 0, 2, 2, 5, 5]
      ∧ ∀ r ∈ rotations (184, 229, 255, 234), r ∉ st.out := by
  refine ⟨flatSearch mainDiceList, main_eq, ?_⟩
  have hmem : ∀ t : Nat × Nat × Nat × Nat,
      t.1 < 924 → t.2.1 < 924 → t.2.2.1 < 924 → t.2.2.2 < 924 →
      t ∈ allTuples mainDiceList.length := by
    intro t h1 h2 h3 h4
    rw [mem_allTuples, mainDiceList_length]
    exact ⟨h1, h2, h3, h4⟩
  rw [mainDiceList_eq] at hmem ⊢
  obtain ⟨p0, p1, p2, p3, p4⟩ := cycle184_passes
  obtain ⟨f0, f1, f2, f3⟩ := cycle184_faces
  refine ⟨(Passes_iff_Qualifies _ 184 229 255 234).1 p0, f0, f1, f2, f3, ?_⟩
  intro r hr
  simp only [rotations, List.mem_cons, List.mem_singleton, List.not_mem_nil, or_false] at hr
  rcases hr with rfl | rfl | rfl | rfl
  · exact not_reported_of_earlier_key _ (184, 229, 255, 234) (184, 186, 255, 234)
      (hmem _ (by decide) (by decide) (by decide) (by decide))
      (hmem _ (by decide) (by decide) (by decide) (by decide))
      (by unfold visitedBefore; decide) p1 rfl
  · exact not_reported_of_earlier_key _ (229, 255, 234, 184) (229, 239, 234, 184)
      (hmem _ (by decide) (by decide) (by decide) (by decide))
      (hmem _ (by decide) (by decide) (by decide) (by decide))
      (by unfold visitedBefore; decide) p2 rfl
  · exact not_reported_of_earlier_key _ (255, 234, 184, 229) (255, 188, 184, 229)
      (hmem _ (by decide) (by decide) (by decide) (by decide))
      (hmem _ (by decide) (by decide) (by decide) (by decide))
      (by unfold visitedBefore; decide) p3 rfl
  · exact not_reported_of_earlier_key _ (234, 184, 229, 255) (234, 140, 229, 255)
      (hmem _ (by decide) (by decide) (by decide) (by decide))
      (hmem _ (by decide) (by decide) (by decide) (by decide))
      (by unfold visitedBefore; decide) p4 rfl

/-! ## The spec example and the order of the decoded faces -/

/-- C11 (spec example): `1` is not in the generated set, `64 = 2^6` is, and `DecodeDie 64`
returns the faces `0 0 0 0 0 0`. -/
theorem spec_example :
    (1 : Int) ∉ GenerateDice [] ∧ (64 : Int) ∈ GenerateDice []
      ∧ DecodeDie 64 = .ok ⟨[0, 0, 0, 0, 0, 0], rfl⟩ := by
  refine ⟨?_, ?_, by decide⟩
  · intro h
    obtain ⟨v, hlen, hv, hprod⟩ := (mem_GenerateDice 1).1 h
    have := prod_kPrime_ge v hv
    rw [← hprod, hlen] at this
    omega
  · exact (mem_GenerateDice 64).2 ⟨[0, 0, 0, 0, 0, 0], rfl, by decide, by decide⟩

/-- C17 (decoded face order): for every `n` in the generated set the faces returned by
`DecodeDie n` are non-decreasing, and they are a rearrangement of every label sequence
that encodes `n`. -/
theorem DecodeDie_sorted (n : Int) (h : n ∈ GenerateDice []) :
    ∃ d, DecodeDie n = .ok d ∧ d.v.Pairwise (· ≤ ·)
      ∧ ∀ v : List Nat, v.length = 6 → (∀ l ∈ v, l < 7) → n = (v.map kPrime).prod →
          d.v.Perm (v.map (fun l : Nat => (l : Int))) := by
  obtain ⟨d, w, hd, hdv, _, hw, hs, hn⟩ := DecodeDie_of_IsEnc n ((mem_GenerateDice n).1 h)
  refine ⟨d, hd, ?_, ?_⟩
  · rw [hdv, List.pairwise_map]
    exact hs.imp (fun hab => Int.ofNat_le.2 hab)
  · intro v _ hv hprod
    rw [hdv]
    apply List.Perm.map
    exact (prod_kPrime_eq_iff_perm w v hw hv).1 (hn.symm.trans hprod)

/-- Witness of C17 at `96 = 2^5 * 3`, whose decoded faces are `0 0 0 0 0 1`. -/
theorem DecodeDie_sorted_witness :
    (96 : Int) ∈ GenerateDice [] ∧ DecodeDie 96 = .ok ⟨[0, 0, 0, 0, 0, 1], rfl⟩
      ∧ ∃ d, DecodeDie 96 = .ok d ∧ d.v.Pairwise (· ≤ ·)
        ∧ ∀ v : List Nat, v.length = 6 → (∀ l ∈ v, l < 7) → 96 = (v.map kPrime).prod →
            d.v.Perm (v.map (fun l : Nat => (l : Int))) :=
  ⟨(mem_GenerateDice 96).2 ⟨[1, 0, 0, 0, 0, 0], rfl, by decide, by decide⟩, by decide,
   DecodeDie_sorted 96
     ((mem_GenerateDice 96).2 ⟨[1, 0, 0, 0, 0, 0], rfl, by decide, by decide⟩)⟩

/-! ## Rotations and ratios -/

theorem Qualifies_rotate (dice : List Die) (a b c d : Nat) (h : Qualifies dice a b c d) :
    Qualifies dice b c d a := by
  obtain ⟨⟨d1, d2, d3, d4, d5, d6⟩, hab, hbc, hcd, hda, s1, s2, s3, s4⟩ := h
  exact ⟨⟨d4, d5, fun e => d1 e.symm, d6, fun e => d2 e.symm, fun e => d3 e.symm⟩,
    hbc, hcd, hda, hab, s2, s3, s4, s1⟩

theorem Passes_rotate_one (dice : List Die) (a b c d : Nat) (h : Passes dice (a, b, c, d)) :
    Passes dice (b, c, d, a) :=
  (Passes_iff_Qualifies dice b c d a).2
    (Qualifies_rotate dice a b c d ((Passes_iff_Qualifies dice a b c d).1 h))

/-- Every rotation of a tuple that passes the filters passes them. -/
theorem Passes_of_mem_rotations (dice : List Die) (s r : Nat × Nat × Nat × Nat)
    (hs : Passes dice s) (hr : r ∈ rotations s) : Passes dice r := by
  obtain ⟨a, b, c, d⟩ := s
  simp only [rotations, List.mem_cons, List.mem_singleton, List.not_mem_nil, or_false] at hr
  have h1 := Passes_rotate_one dice a b c d hs
  have h2 := Passes_rotate_one dice b c d a h1
  have h3 := Passes_rotate_one dice c d a b h2
  rcases hr with rfl | rfl | rfl | rfl
  · exact hs
  · exact h1
  · exact h2
  · exact h3

/-- C19 (rotation invariance of the filter): a tuple `(a,b,c,d)` passes every filter of the
nested loops of `main` exactly when its rotation `(b,c,d,a)` passes every one of them. -/
theorem Passes_rotation_invariant (dice : List Die) (a b c d : Nat) :
    Passes dice (a, b, c, d) ↔ Passes dice (b, c, d, a) :=
  ⟨Passes_rotate_one dice a b c d, fun h =>
    Passes_rotate_one dice d a b c (Passes_rotate_one dice c d a b
      (Passes_rotate_one dice b c d a h))⟩

theorem ratio_trans (p0 q0 p1 q1 p2 q2 : Int) (hq1 : 0 < q1)
    (h01 : p0 * q1 = p1 * q0) (h12 : p1 * q2 = p2 * q1) : p0 * q2 = p2 * q0 := by
  have h : q1 * (p0 * q2) = q1 * (p2 * q0) := by
    calc q1 * (p0 * q2) = (p0 * q1) * q2 := by ring
      _ = (p1 * q0) * q2 := by rw [h01]
      _ = (p1 * q2) * q0 := by ring
      _ = (p2 * q1) * q0 := by rw [h12]
      _ = q1 * (p2 * q0) := by ring
  exact mul_left_cancel₀ (ne_of_gt hq1) h

/-- C18 (ratio transitivity): for positive integers the three adjacent cross-multiplication
equalities make all four ratios pairwise equal, the closing equality
`w1[3] * w2[0] = w1[0] * w2[3]` included; hence in the search the test of line 182 never
rejects a tuple that passed the tests before it. -/
theorem ratio_closure :
    (∀ p0 p1 p2 p3 q0 q1 q2 q3 : Int,
        0 < p0 → 0 < p1 → 0 < p2 → 0 < p3 → 0 < q0 → 0 < q1 → 0 < q2 → 0 < q3 →
        p0 * q1 = p1 * q0 → p1 * q2 = p2 * q1 → p2 * q3 = p3 * q2 →
        p0 * q2 = p2 * q0 ∧ p1 * q3 = p3 * q1 ∧ p3 * q0 = p0 * q3)
      ∧ (∀ (dice : List Die) (a b c d : Nat),
        Beats (Odds (dieAt dice a) (dieAt dice b)) → Beats (Odds (dieAt dice b) (dieAt dice c)) →
        Beats (Odds (dieAt dice c) (dieAt dice d)) → Beats (Odds (dieAt dice d) (dieAt dice a)) →
        SameRatio (Odds (dieAt dice a) (dieAt dice b)) (Odds (dieAt dice b) (dieAt dice c)) →
        SameRatio (Odds (dieAt dice b) (dieAt dice c)) (Odds (dieAt dice c) (dieAt dice d)) →
        SameRatio (Odds (dieAt dice c) (dieAt dice d)) (Odds (dieAt dice d) (dieAt dice a)) →
        ¬ ((Odds (dieAt dice d) (dieAt dice a)).1 * (Odds (dieAt dice a) (dieAt dice b)).2
            ≠ (Odds (dieAt dice a) (dieAt dice b)).1 * (Odds (dieAt dice d) (dieAt dice a)).2)) := by
  have key : ∀ p0 p1 p2 p3 q0 q1 q2 q3 : Int,
      0 < p0 → 0 < p1 → 0 < p2 → 0 < p3 → 0 < q0 → 0 < q1 → 0 < q2 → 0 < q3 →
      p0 * q1 = p1 * q0 → p1 * q2 = p2 * q1 → p2 * q3 = p3 * q2 →
      p0 * q2 = p2 * q0 ∧ p1 * q3 = p3 * q1 ∧ p3 * q0 = p0 * q3 := by
    intro p0 p1 p2 p3 q0 q1 q2 q3 _ _ _ _ _ hq1 hq2 _ h01 h12 h23
    have h02 := ratio_trans p0 q0 p1 q1 p2 q2 hq1 h01 h12
    have h13 := ratio_trans p1 q1 p2 q2 p3 q3 hq2 h12 h23
    have h03 := ratio_trans p0 q0 p2 q2 p3 q3 hq2 h02 h23
    exact ⟨h02, h13, h03.symm⟩
  refine ⟨key, ?_⟩
  intro dice a b c d hab hbc hcd hda s1 s2 s3
  unfold Beats at hab hbc hcd hda
  unfold SameRatio at s1 s2 s3
  have := (key _ _ _ _ _ _ _ _ hab.1 hbc.1 hcd.1 hda.1 hab.2.1 hbc.2.1 hcd.2.1 hda.2.1
    s1 s2 s3).2.2
  exact not_not.2 this

/-- Witness of C18: the ratios `16:14`, `8:7`, `24:21`, `32:28`, and the four edges of the
tuple `(0,1,2,3)` of `sampleDice`. -/
theorem ratio_closure_witness :
    ((16 : Int) * 7 = 8 * 14 ∧ (8 : Int) * 21 = 24 * 7 ∧ (24 : Int) * 28 = 32 * 21
        ∧ (32 : Int) * 14 = 16 * 28)
      ∧ ¬ ((Odds (dieAt sampleDice 3) (dieAt sampleDice 0)).1
            * (Odds (dieAt sampleDice 0) (dieAt sampleDice 1)).2
          ≠ (Odds (dieAt sampleDice 0) (dieAt sampleDice 1)).1
            * (Odds (dieAt sampleDice 3) (dieAt sampleDice 0)).2) :=
  ⟨⟨by decide, by decide, by decide,
    (ratio_closure.1 16 8 24 32 14 7 21 28 (by decide) (by decide) (by decide) (by decide)
      (by decide) (by decide) (by decide) (by decide) (by decide) (by decide)
      (by decide)).2.2⟩,
   ratio_closure.2 sampleDice 0 1 2 3 (by unfold Beats; decide) (by unfold Beats; decide)
     (by unfold Beats; decide) (by unfold Beats; decide) (by unfold SameRatio; decide)
     (by unfold SameRatio; decide) (by unfold SameRatio; decide)⟩

/-! ## No overflow in the generator -/

theorem roundSet_IsEnc (r : Nat) (hr : r ≤ 6) (m : Int) : m ∈ roundSet r ↔ IsEnc r m := by
  induction r generalizing m with
  | zero =>
    have h1 : roundSet 0 = [1] := rfl
    rw [h1]
    constructor
    · intro h
      exact ⟨[], rfl, by simp, by simpa using h⟩
    · rintro ⟨v, hlen, _, rfl⟩
      have : v = [] := List.length_eq_zero.1 hlen
      subst this
      simp
  | succ r ih =>
    have h1 : roundSet (r + 1) = AddFace (roundSet r) := rfl
    rw [h1]
    exact AddFace_IsEnc r (by omega) (roundSet r) (fun m => ih (by omega) m) m

theorem roundSet_product_bounds (r : Nat) (hr : r < 6) (n : Int) (hn : n ∈ roundSet r)
    (i : Nat) (hi : i < kNumberOfLabels) :
    0 < n * kPrime i ∧ n * kPrime i ≤ 24137569 ∧ wrap64 (n * kPrime i) = n * kPrime i := by
  have hb := IsEnc_bounds r n ((roundSet_IsEnc r (by omega) n).1 hn)
  have hp := kPrime_bounds i hi
  have h17 : (17 : Int) ^ r ≤ 17 ^ 5 := pow_le_pow_right₀ (by norm_num) (by omega)
  have hle : n * kPrime i ≤ 17 ^ 5 * 17 := by nlinarith
  have hpos : 0 < n * kPrime i := by nlinarith
  norm_num at hle
  exact ⟨hpos, hle, wrap64_eq_self _ (by omega) (by omega)⟩

theorem AddFace_eq_exact (s : List Int)
    (h : ∀ n ∈ s, ∀ i, i < kNumberOfLabels → wrap64 (n * kPrime i) = n * kPrime i) :
    AddFace s = AddFaceExact s := by
  unfold AddFace AddFaceExact
  apply List.foldl_ext
  intro tmp n hn
  apply List.foldl_ext
  intro tmp' i hi
  rw [h n hn i (List.mem_range.1 hi)]

theorem GenerateDice_eq_roundSet : GenerateDice [] = roundSet 6 := by
  rw [GenerateDice_unfold]
  have h0 : roundSet 0 = [1] := rfl
  have e : ∀ r, roundSet (r + 1) = AddFace (roundSet r) := fun _ => rfl
  rw [e 5, e 4, e 3, e 2, e 1, e 0, h0]

theorem GenerateDiceExact_unfold :
    GenerateDiceExact [] = AddFaceExact (AddFaceExact (AddFaceExact (AddFaceExact
      (AddFaceExact (AddFaceExact [1]))))) := by
  have hr : List.range kNumberOfFaces = [0, 1, 2, 3, 4, 5] := by decide
  have h1 : setInsert 1 [] = [1] := rfl
  unfold GenerateDiceExact
  rw [hr, h1, List.foldl_cons, List.foldl_cons, List.foldl_cons, List.foldl_cons,
    List.foldl_cons, List.foldl_cons, List.foldl_nil]

theorem GenerateDice_eq_exact : GenerateDice [] = GenerateDiceExact [] := by
  have step : ∀ r, r < 6 → AddFace (roundSet r) = AddFaceExact (roundSet r) := by
    intro r hr
    exact AddFace_eq_exact _ (fun n hn i hi => (roundSet_product_bounds r hr n hn i hi).2.2)
  have h0 : roundSet 0 = [1] := rfl
  have e : ∀ r, roundSet (r + 1) = AddFace (roundSet r) := fun _ => rfl
  have s0 := step 0 (by omega)
  have s1 := step 1 (by omega)
  have s2 := step 2 (by omega)
  have s3 := step 3 (by omega)
  have s4 := step 4 (by omega)
  have s5 := step 5 (by omega)
  rw [e 0, s0] at s1
  rw [e 1, e 0, s0, s1] at s2
  rw [e 2, e 1, e 0, s0, s1, s2] at s3
  rw [e 3, e 2, e 1, e 0, s0, s1, s2, s3] at s4
  rw [e 4, e 3, e 2, e 1, e 0, s0, s1, s2, s3, s4] at s5
  rw [GenerateDice_eq_roundSet, GenerateDiceExact_unfold, e 5, e 4, e 3, e 2, e 1, e 0,
    s0, s1, s2, s3, s4, s5, h0]

/-- C20 (no overflow in the generator): in each of the six rounds of `AddFace`, every
product `n * kPrime[i]` over the working set is positive and at most `17^6 = 24137569`, so
its reduction to 64 bits is the exact product; the generated set is the set computed with
unbounded integers. -/
theorem generator_no_overflow :
    (17 : Int) ^ 6 = 24137569
      ∧ GenerateDice [] = roundSet 6
      ∧ (∀ r, r < 6 → ∀ n ∈ roundSet r, ∀ i, i < kNumberOfLabels →
          0 < n * kPrime i ∧ n * kPrime i ≤ 24137569
            ∧ wrap64 (n * kPrime i) = n * kPrime i)
      ∧ GenerateDice [] = GenerateDiceExact [] :=
  ⟨by norm_num, GenerateDice_eq_roundSet,
   fun r hr n hn i hi => roundSet_product_bounds r hr n hn i hi, GenerateDice_eq_exact⟩

/-- Witness of C20 in the first round: the working set is `1` and the product with
`kPrime[6] = 17` is `17`. -/
theorem generator_no_overflow_witness :
    (0 : Nat) < 6 ∧ (1 : Int) ∈ roundSet 0 ∧ 6 < kNumberOfLabels
      ∧ (0 < (1 : Int) * kPrime 6 ∧ (1 : Int) * kPrime 6 ≤ 24137569
        ∧ wrap64 ((1 : Int) * kPrime 6) = 1 * kPrime 6) :=
  ⟨by decide, by decide, by decide,
   generator_no_overflow.2.2.1 0 (by decide) 1 (by decide) 6 (by decide)⟩

/-! ## The marker of `PrintFound` -/

theorem pairCount_eq_zero_iff (p : Int → Int → Bool) (l1 l2 : List Int) :
    pairCount p l1 l2 = 0 ↔ ∀ x ∈ l1, ∀ y ∈ l2, p x y = false := by
  unfold pairCount
  induction l1 with
  | nil => simp
  | cons x xs ih =>
    rw [List.map_cons, List.sum_cons, Nat.add_eq_zero_iff, ih, List.countP_eq_zero]
    constructor
    · rintro ⟨h1, h2⟩ a ha
      rcases List.mem_cons.1 ha with rfl | ha
      · intro y hy
        simpa using h1 y hy
      · exact h2 a ha
    · intro h
      refine ⟨?_, fun a ha => h a (List.mem_cons_of_mem _ ha)⟩
      intro y hy
      simpa using h x (List.mem_cons_self _ _) y hy

/-- The odds of an edge add up to `36` exactly when the two dice share no face label. -/
theorem Odds_sum_eq_iff_tieFree (X Y : Die) :
    (Odds X Y).1 + (Odds X Y).2 = 36 ↔ TieFree X Y := by
  have ht := pairCount_trichotomy X.v Y.v
  rw [X.size, Y.size] at ht
  simp only [kNumberOfFaces] at ht
  have hz := pairCount_eq_zero_iff eqb X.v Y.v
  rw [Odds_eq_pairCount]
  unfold TieFree
  constructor
  · intro h
    have h0 : pairCount eqb X.v Y.v = 0 := by simp only at h; omega
    intro x hx y hy hxy
    have := hz.1 h0 x hx y hy
    simp [eqb, hxy] at this
  · intro h
    have h0 : pairCount eqb X.v Y.v = 0 := by
      apply hz.2
      intro x hx y hy
      simpa [eqb] using h x hx y hy
    simp only
    omega

/-- C12 (the marker `(no ties)`): with the odds computed by `Odds` on the edges `(A,B)`,
`(B,C)`, `(C,D)`, `(D,A)`, `PrintFound` prints the marker exactly when on each edge no face
label of the first die equals a face label of the second. -/
theorem PrintFound_noTies_iff (A B C D : Die) :
    (PrintFound A B C D
        [(Odds A B).1, (Odds B C).1, (Odds C D).1, (Odds D A).1]
        [(Odds A B).2, (Odds B C).2, (Odds C D).2, (Odds D A).2]).noTies = true
      ↔ TieFree A B ∧ TieFree B C ∧ TieFree C D ∧ TieFree D A := by
  unfold PrintFound
  simp only [decide_eq_true_eq, List.getD_cons_zero, List.getD_cons_succ, kNumberOfFaces]
  rw [← Odds_sum_eq_iff_tieFree A B, ← Odds_sum_eq_iff_tieFree B C,
    ← Odds_sum_eq_iff_tieFree C D, ← Odds_sum_eq_iff_tieFree D A]
  norm_num

/-! ## The key of `Quadruple` -/

theorem or_eq_add_shift (x y i : Nat) (hy : y < 2 ^ i) : (x <<< i) ||| y = x * 2 ^ i + y := by
  rw [Nat.shiftLeft_eq, Nat.mul_comm x, Nat.mul_add_lt_is_or hy]

/-- The bits packed by `Quadruple`, as a sum. -/
theorem packed_bits_eq (a c d : Nat) (hc : c < 65536) (hd : d < 65536) :
    (a <<< 48) ||| (d <<< 32) ||| (c <<< 16) ||| d
      = a * 281474976710656 + d * 4294967296 + c * 65536 + d := by
  rw [Nat.or_assoc, Nat.or_assoc]
  have e1 : (c <<< 16) ||| d = c * 65536 + d := or_eq_add_shift c d 16 (by norm_num; omega)
  have e2 : (d <<< 32) ||| (c * 65536 + d) = d * 4294967296 + (c * 65536 + d) :=
    or_eq_add_shift d _ 32 (by norm_num; omega)
  have e3 : (a <<< 48) ||| (d * 4294967296 + (c * 65536 + d))
      = a * 281474976710656 + (d * 4294967296 + (c * 65536 + d)) :=
    or_eq_add_shift a _ 48 (by norm_num; omega)
  rw [e1, e2, e3]
  omega

theorem quadKey_eq_wrap (a b c d : Nat) (hc : c < 65536) (hd : d < 65536) :
    quadKey a b c d
      = wrap64 ((a : Int) * 281474976710656 + d * 4294967296 + c * 65536 + d) := by
  unfold quadKey
  rw [packed_bits_eq a c d hc hd]
  push_cast
  rfl

theorem quadKey_eq_small (a b c d : Nat) (ha : a < 32768) (hc : c < 65536) (hd : d < 65536) :
    quadKey a b c d = (a : Int) * 281474976710656 + d * 4294967296 + c * 65536 + d := by
  rw [quadKey_eq_wrap a b c d hc hd]
  unfold wrap64
  omega

theorem quadKey_eq_large (a b c d : Nat) (ha : 32768 ≤ a) (ha' : a < 65536) (hc : c < 65536)
    (hd : d < 65536) :
    quadKey a b c d
      = (a : Int) * 281474976710656 + d * 4294967296 + c * 65536 + d
        - 18446744073709551616 := by
  rw [quadKey_eq_wrap a b c d hc hd]
  unfold wrap64
  omega

/-- On indices below `32768` the key determines `a`, `c` and `d`. -/
theorem quadKey_inj (a b c d a' b' c' d' : Nat) (ha : a < 32768) (hc : c < 65536)
    (hd : d < 65536) (ha' : a' < 32768) (hc' : c' < 65536) (hd' : d' < 65536)
    (h : quadKey a b c d = quadKey a' b' c' d') : a = a' ∧ c = c' ∧ d = d' := by
  rw [quadKey_eq_small a b c d ha hc hd, quadKey_eq_small a' b' c' d' ha' hc' hd'] at h
  omega

/-- C13 fails as stated: `Quadruple(32768,0,0,0)` is `-2^63`, not `32768 * 2^48 = 2^63`. -/
theorem Quadruple_formula_counterexample :
    Quadruple 32768 0 0 0 = .ok (-9223372036854775808)
      ∧ Quadruple 32768 0 0 0
          ≠ .ok (32768 * 2 ^ 48 + 0 * 2 ^ 32 + 0 * 2 ^ 16 + 0) := by
  decide

/-- C13 amended (key packing): for `a, b, c, d` in `[0, 65536)`, `Quadruple(a,b,c,d)` is
`a*2^48 + d*2^32 + c*2^16 + d` reduced to a signed 64-bit value: that sum when
`a < 32768`, and the sum minus `2^64` when `a ≥ 32768`. It does not depend on `b`, and the
packing is not injective on in-range tuples. -/
theorem Quadruple_packing (a b c d : Nat) (ha : a < 65536) (hb : b < 65536) (hc : c < 65536)
    (hd : d < 65536) :
    Quadruple a b c d
        = .ok (wrap64 ((a : Int) * 2 ^ 48 + (d : Int) * 2 ^ 32 + (c : Int) * 2 ^ 16 + d))
      ∧ (a < 32768 → Quadruple a b c d
          = .ok ((a : Int) * 2 ^ 48 + (d : Int) * 2 ^ 32 + (c : Int) * 2 ^ 16 + d))
      ∧ (32768 ≤ a → Quadruple a b c d
          = .ok ((a : Int) * 2 ^ 48 + (d : Int) * 2 ^ 32 + (c : Int) * 2 ^ 16 + d - 2 ^ 64))
      ∧ (∀ b' : Nat, b' < 65536 → Quadruple a b c d = Quadruple a b' c d)
      ∧ (∃ t t' : Nat × Nat × Nat × Nat, t ≠ t'
          ∧ t.1 < 65536 ∧ t.2.1 < 65536 ∧ t.2.2.1 < 65536 ∧ t.2.2.2 < 65536
          ∧ t'.1 < 65536 ∧ t'.2.1 < 65536 ∧ t'.2.2.1 < 65536 ∧ t'.2.2.2 < 65536
          ∧ Quadruple t.1 t.2.1 t.2.2.1 t.2.2.2 = Quadruple t'.1 t'.2.1 t'.2.2.1 t'.2.2.2) := by
  have e := Quadruple_eq a b c d ha hb hc hd
  refine ⟨?_, ?_, ?_, ?_, ?_⟩
  · rw [e, quadKey_eq_wrap a b c d hc hd]; norm_num
  · intro h
    rw [e, quadKey_eq_small a b c d h hc hd]; norm_num
  · intro h
    rw [e, quadKey_eq_large a b c d h ha hc hd]; norm_num
  · intro b' hb'
    rw [e, Quadruple_eq a b' c d ha hb' hc hd]
    rfl
  · exact ⟨(0, 0, 0, 0), (0, 1, 0, 0), by decide, by decide, by decide, by decide, by decide,
      by decide, by decide, by decide, by decide, by decide⟩

/-- Witness of C13 amended at `(1,2,3,4)` and `(40000,2,3,4)`. -/
theorem Quadruple_packing_witness :
    Quadruple 1 2 3 4 = .ok (1 * 2 ^ 48 + 4 * 2 ^ 32 + 3 * 2 ^ 16 + 4)
      ∧ Quadruple 40000 2 3 4
          = .ok (40000 * 2 ^ 48 + 4 * 2 ^ 32 + 3 * 2 ^ 16 + 4 - 2 ^ 64)
      ∧ Quadruple 1 2 3 4 = Quadruple 1 7 3 4 :=
  ⟨(Quadruple_packing 1 2 3 4 (by decide) (by decide) (by decide) (by decide)).2.1 (by decide),
   (Quadruple_packing 40000 2 3 4 (by decide) (by decide) (by decide)
      (by decide)).2.2.1 (by decide),
   (Quadruple_packing 1 2 3 4 (by decide) (by decide) (by decide) (by decide)).2.2.2.1 7
      (by decide)⟩

/-! ## The reference decoder and the stopping rule -/

theorem Die.ext_v {d1 d2 : Die} (h : d1.v = d2.v) : d1 = d2 := by
  cases d1; cases d2; simp only [Die.mk.injEq]; exact h

theorem set_take_drop (dv : List Int) (k : Nat) (x : Int) (rest : List Int)
    (hk : k < dv.length) :
    (dv.set k x).take (k + 1) ++ rest ++ (dv.set k x).drop (k + 1 + rest.length)
      = dv.take k ++ (x :: rest) ++ dv.drop (k + (rest.length + 1)) := by
  rw [List.set_eq_take_append_cons_drop, if_pos hk]
  have e1 : (List.take k dv ++ x :: List.drop (k + 1) dv).take (k + 1)
      = List.take k dv ++ [x] := by
    rw [List.take_append_eq_append_take]
    simp [List.length_take, Nat.min_eq_left (Nat.le_of_lt hk)]
  have e2 : (List.take k dv ++ x :: List.drop (k + 1) dv).drop (k + 1 + rest.length)
      = List.drop (k + (rest.length + 1)) dv := by
    have a1 : k + 1 + rest.length - k = rest.length + 1 := by omega
    rw [List.drop_append_eq_append_drop,
      List.drop_eq_nil_of_le (by rw [List.length_take]; omega), List.nil_append,
      List.length_take, Nat.min_eq_left (Nat.le_of_lt hk), a1,
      List.drop_succ_cons, List.drop_drop]
    congr 1
    omega
  rw [e1, e2]
  simp

/-- On the product of a sorted label list the reference loop records the labels in that
order and leaves the remaining value `1`. -/
theorem specDecodeLoop_sorted (fuel : Nat) : ∀ (i : Nat) (st : DecodeState) (v : List Nat),
    v.Pairwise (· ≤ ·) → (∀ l ∈ v, i ≤ l) → (∀ l ∈ v, l < kNumberOfLabels) →
    st.n = (v.map kPrime).prod → st.k + v.length ≤ kNumberOfFaces →
    v.length * (kNumberOfLabels + 1) + (kNumberOfLabels - i) + 1 ≤ fuel →
    ∃ st', specDecodeLoop fuel i st = some st' ∧ st'.k = st.k + v.length ∧ st'.n = 1 ∧
      st'.d.v = st.d.v.take st.k ++ v.map (fun l : Nat => (l : Int))
        ++ st.d.v.drop (st.k + v.length) := by
  induction fuel with
  | zero => intro i st v _ _ _ _ _ hf; omega
  | succ fuel ih =>
    intro i st v hs hlo hhi hn hk hf
    rw [specDecodeLoop]
    cases v with
    | nil =>
      have hn1 : st.n = 1 := by simpa using hn
      rw [if_pos (Or.inl hn1)]
      exact ⟨st, rfl, by simp, hn1, by simp⟩
    | cons l rest =>
      have hrest : ∀ x ∈ rest, x < kNumberOfLabels :=
        fun x hx => hhi x (List.mem_cons_of_mem _ hx)
      have hl7 := hhi l (List.mem_cons_self _ _)
      have hil := hlo l (List.mem_cons_self _ _)
      have hge := prod_kPrime_ge (l :: rest) hhi
      simp only [List.length_cons] at hk hf hge
      have hne : ¬ (st.n = 1 ∨ st.k = kNumberOfFaces) := by
        rw [← hn] at hge
        push_cast at hge
        rintro (h | h) <;> omega
      have hi : i < kNumberOfLabels := by omega
      rw [if_neg hne, if_pos hi]
      rw [List.pairwise_cons] at hs
      by_cases hli : l = i
      · subst hli
        have hp := kPrime_bounds l hi
        have hn' : st.n = kPrime l * (rest.map kPrime).prod := by
          rw [hn, List.map_cons, List.prod_cons]
        have hrem : Int.tmod st.n (kPrime l) = 0 :=
          Int.tmod_eq_zero_of_dvd ⟨_, hn'⟩
        have hquot : Int.tdiv st.n (kPrime l) = (rest.map kPrime).prod := by
          rw [hn']; exact Int.mul_tdiv_cancel_left _ (by omega)
        have hklt : st.k < st.d.v.length := by
          rw [st.d.size]; omega
        rw [if_pos hrem, hquot]
        obtain ⟨st', h1', h2', h3', h4'⟩ := ih 0
          { d := st.d.set st.k (l : Int), k := st.k + 1, n := (rest.map kPrime).prod }
          rest hs.2 (fun x _ => Nat.zero_le x) hrest rfl
          (by show st.k + 1 + rest.length ≤ kNumberOfFaces; omega)
          (by unfold kNumberOfLabels at hf hi ⊢; omega)
        refine ⟨st', h1', ?_, h3', ?_⟩
        · rw [h2']
          show st.k + 1 + rest.length = st.k + (rest.length + 1)
          omega
        · rw [h4']
          have e := set_take_drop st.d.v st.k (l : Int)
            (rest.map (fun l : Nat => (l : Int))) hklt
          rw [List.length_map] at e
          exact e
      · have hlt : i < l := by omega
        have hlo' : ∀ x ∈ l :: rest, i + 1 ≤ x := by
          intro x hx
          rcases List.mem_cons.1 hx with rfl | hx
          · omega
          · have := hs.1 x hx
            omega
        have hrem : ¬ Int.tmod st.n (kPrime i) = 0 := by
          intro h0
          have hd := Int.dvd_of_tmod_eq_zero h0
          rw [hn] at hd
          exact kPrime_not_dvd i hi (l :: rest) (fun x hx => hlo' x hx) hhi hd
        rw [if_neg hrem]
        exact ih (i + 1) st (l :: rest) (List.pairwise_cons.2 hs) hlo' hhi hn
          (by simp only [List.length_cons]; omega)
          (by simp only [List.length_cons]; omega)

/-- On the encoding of a sorted sequence of six labels the reference decoder returns that
sequence. -/
theorem DecodeDieSpec_of_sorted (v : List Nat) (hlen : v.length = kNumberOfFaces)
    (hv : ∀ l ∈ v, l < kNumberOfLabels) (hs : v.Pairwise (· ≤ ·)) :
    ∃ d, DecodeDieSpec (v.map kPrime).prod = .ok d
      ∧ d.v = v.map (fun l : Nat => (l : Int)) := by
  have hge := prod_kPrime_ge v hv
  have hfuel : v.length * (kNumberOfLabels + 1) + (kNumberOfLabels - 0) + 1
      ≤ specDecodeFuel (v.map kPrime).prod := by
    unfold specDecodeFuel
    rw [hlen] at hge ⊢
    unfold kNumberOfFaces at hge ⊢
    unfold kNumberOfLabels
    omega
  obtain ⟨st', h1, h2, h3, h4⟩ := specDecodeLoop_sorted (specDecodeFuel (v.map kPrime).prod) 0
    { d := Die.zero, k := 0, n := (v.map kPrime).prod } v hs (fun _ _ => Nat.zero_le _) hv rfl
    (by simp [hlen]) hfuel
  refine ⟨st'.d, ?_, ?_⟩
  · unfold DecodeDieSpec
    rw [h1]
    have hk : st'.k = kNumberOfFaces := by rw [h2, hlen]; simp
    simp only [hk, h3, if_true]
  · rw [h4]
    have hz : Die.zero.v.length = kNumberOfFaces := Die.zero.size
    simp only [List.take_zero, List.nil_append, Nat.zero_add, hlen]
    rw [List.drop_eq_nil_of_le (by rw [hz]), List.append_nil]

/-- C15 (decoder scan equivalence): on every integer of the generated set, `DecodeDie`,
which re-tests the same prime after a division, returns the same die as the reference
decoder of the specification, which restarts the scan from the smallest prime. -/
theorem DecodeDie_eq_spec (n : Int) (h : n ∈ GenerateDice []) :
    ∃ d, DecodeDie n = .ok d ∧ DecodeDieSpec n = .ok d := by
  obtain ⟨d, w, hd, hdv, hlen, hw, hs, hn⟩ := DecodeDie_of_IsEnc n ((mem_GenerateDice n).1 h)
  obtain ⟨d', hd', hdv'⟩ := DecodeDieSpec_of_sorted w hlen hw hs
  rw [← hn] at hd'
  have : d' = d := Die.ext_v (hdv'.trans hdv.symm)
  rw [this] at hd'
  exact ⟨d, hd, hd'⟩

/-- Witness of C15 at `2 * 3 * 5 * 7 * 11 * 13 = 30030`: both decoders return
`0 1 2 3 4 5`. -/
theorem DecodeDie_eq_spec_witness :
    (30030 : Int) ∈ GenerateDice [] ∧ DecodeDie 30030 = .ok ⟨[0, 1, 2, 3, 4, 5], rfl⟩
      ∧ DecodeDieSpec 30030 = .ok ⟨[0, 1, 2, 3, 4, 5], rfl⟩
      ∧ ∃ d, DecodeDie 30030 = .ok d ∧ DecodeDieSpec 30030 = .ok d :=
  ⟨(mem_GenerateDice 30030).2 ⟨[0, 1, 2, 3, 4, 5], rfl, by decide, by decide⟩,
   by decide, by decide,
   DecodeDie_eq_spec 30030
     ((mem_GenerateDice 30030).2 ⟨[0, 1, 2, 3, 4, 5], rfl, by decide, by decide⟩)⟩

/-- The loop of `DecodeDie` stops only on a remaining value `1` or when none of the label
primes divides the remaining value; the number of recorded labels is not tested. -/
theorem decodeLoop_stop (fuel : Nat) : ∀ (i : Nat) (st : DecodeState),
    st.n ≠ 0 → st.n.natAbs + (kNumberOfLabels - i) + 1 ≤ fuel →
    (∀ j, j < i → ¬ kPrime j ∣ st.n) →
    ∃ st', decodeLoop fuel i st = some st'
      ∧ (st'.n = 1 ∨ ∀ j, j < kNumberOfLabels → ¬ kPrime j ∣ st'.n) := by
  induction fuel with
  | zero => intro i st _ hf; omega
  | succ fuel ih =>
    intro i st hn hf hinv
    rw [decodeLoop]
    by_cases hi : i < kNumberOfLabels
    · rw [if_pos hi]
      by_cases hrem : Int.tmod st.n (kPrime i) = 0
      · rw [if_pos hrem]
        by_cases h1 : Int.tdiv st.n (kPrime i) = 1
        · simp only [h1, if_true]
          exact ⟨_, rfl, Or.inl rfl⟩
        · simp only [h1, if_false]
          have hp := kPrime_bounds i hi
          have hmul : kPrime i * Int.tdiv st.n (kPrime i) = st.n :=
            Int.mul_tdiv_cancel_of_tmod_eq_zero hrem
          have hq0 : Int.tdiv st.n (kPrime i) ≠ 0 := by
            intro h0
            rw [h0, mul_zero] at hmul
            exact hn hmul.symm
          have hlt : (Int.tdiv st.n (kPrime i)).natAbs < st.n.natAbs := by
            have hm : st.n.natAbs = (kPrime i).natAbs * (Int.tdiv st.n (kPrime i)).natAbs := by
              rw [← Int.natAbs_mul, hmul]
            have hq : 0 < (Int.tdiv st.n (kPrime i)).natAbs := Int.natAbs_pos.2 hq0
            have hp2 : 2 ≤ (kPrime i).natAbs := by omega
            rw [hm]
            nlinarith
          apply ih
          · exact hq0
          · simp only
            omega
          · intro j hj hd
            exact hinv j hj (dvd_trans hd ⟨kPrime i, by rw [mul_comm]; exact hmul.symm⟩)
      · rw [if_neg hrem]
        apply ih _ _ hn (by omega)
        intro j hj hd
        by_cases hji : j = i
        · subst hji
          exact hrem (Int.tmod_eq_zero_of_dvd hd)
        · exact hinv j (by omega) hd
    · rw [if_neg hi]
      exact ⟨st, rfl, Or.inr (fun j hj => hinv j (by omega))⟩

/-- C16 fails as stated: on `n = 128 = 2^7` the loop of `DecodeDie` records seven labels,
the seventh through the write `d.v[6]`. -/
theorem decode_records_seven :
    (1 : Int) ≤ 128
      ∧ decodeLoop (decodeFuel 128) 0 { d := Die.zero, k := 0, n := 128 }
          = some { d := Die.zero, k := 7, n := 1 }
      ∧ DecodeDie 128 = .error .assertion := by
  decide

/-- C16 amended (decoder stopping rule): for every `n ≥ 1` the loop of `DecodeDie` returns,
and it stops recording only when the remaining value is `1` or no label prime divides it;
there is no stop at six labels. For every `n` of the generated set it ends with exactly six
labels recorded and remaining value `1`, so it never writes `d.v[k]` with `k ≥ 6`. -/
theorem decode_stopping_rule (n : Int) (hn : 1 ≤ n) :
    (∃ st, decodeLoop (decodeFuel n) 0 { d := Die.zero, k := 0, n := n } = some st
        ∧ (st.n = 1 ∨ ∀ j, j < kNumberOfLabels → ¬ kPrime j ∣ st.n))
      ∧ (n ∈ GenerateDice [] →
          ∃ st, decodeLoop (decodeFuel n) 0 { d := Die.zero, k := 0, n := n } = some st
            ∧ st.k = kNumberOfFaces ∧ st.n = 1) := by
  have h1 := decodeLoop_stop (decodeFuel n) 0 { d := Die.zero, k := 0, n := n }
    (by show n ≠ 0; omega) (by unfold decodeFuel; simp) (fun j hj => by omega)
  refine ⟨h1, ?_⟩
  intro hmem
  obtain ⟨d, hd⟩ := (DecodeDie_generated n hmem)
  obtain ⟨st, hst, _⟩ := h1
  refine ⟨st, hst, ?_⟩
  have hok := hd.1
  unfold DecodeDie at hok
  rw [hst] at hok
  simp only at hok
  by_cases hk : st.k = kNumberOfFaces
  · by_cases hn1 : st.n = 1
    · exact ⟨hk, hn1⟩
    · simp [hk, hn1] at hok
  · simp [hk] at hok

/-- Witness of C16 amended at `n = 64`. -/
theorem decode_stopping_rule_witness :
    (1 : Int) ≤ 64
      ∧ decodeLoop (decodeFuel 64) 0 { d := Die.zero, k := 0, n := 64 }
          = some { d := Die.zero, k := 6, n := 1 }
      ∧ ∃ st, decodeLoop (decodeFuel 64) 0 { d := Die.zero, k := 0, n := 64 } = some st
            ∧ st.k = kNumberOfFaces ∧ st.n = 1 :=
  ⟨by decide, by decide,
   (decode_stopping_rule 64 (by decide)).2
     ((mem_GenerateDice 64).2 ⟨[0, 0, 0, 0, 0, 0], rfl, by decide, by decide⟩)⟩

/-! ## A printed tuple that is not the first of its rotations -/

theorem flatStep_out_mono (dice : List Die) (st : SearchState) (x t : Nat × Nat × Nat × Nat)
    (h : t ∈ st.out) : t ∈ (flatStep dice st x).out := by
  unfold flatStep reportPure
  by_cases hp : Passes dice x
  · rw [if_pos hp]
    by_cases hk : quadKey x.1 x.2.1 x.2.2.1 x.2.2.2 ∈ st.found
    · rw [if_pos hk]; exact h
    · rw [if_neg hk]; exact List.mem_append_left _ h
  · rw [if_neg hp]; exact h

theorem foldl_out_mono (dice : List Die) (l : List (Nat × Nat × Nat × Nat)) (st : SearchState)
    (t : Nat × Nat × Nat × Nat) (h : t ∈ st.out) : t ∈ (l.foldl (flatStep dice) st).out := by
  induction l generalizing st with
  | nil => exact h
  | cons x xs ih => rw [List.foldl_cons]; exact ih _ (flatStep_out_mono dice st x t h)

/-- A visited tuple that passes the filters and has a new key is printed. -/
theorem flatStep_self_mem (dice : List Die) (st : SearchState) (t : Nat × Nat × Nat × Nat)
    (hp : Passes dice t) (hk : keyOf t ∉ st.found) : t ∈ (flatStep dice st t).out := by
  have hk' : quadKey t.1 t.2.1 t.2.2.1 t.2.2.2 ∉ st.found := hk
  unfold flatStep reportPure
  rw [if_pos hp, if_neg hk']
  exact List.mem_append_right _ (List.mem_singleton.2 rfl)

/-- Every key in `found` is the key of a rotation of a printed tuple. -/
theorem flatStep_found_from_out (dice : List Die) (st : SearchState)
    (x : Nat × Nat × Nat × Nat)
    (h : ∀ q ∈ st.found, ∃ t ∈ st.out, ∃ r ∈ rotations t, q = keyOf r) :
    ∀ q ∈ (flatStep dice st x).found,
      ∃ t ∈ (flatStep dice st x).out, ∃ r ∈ rotations t, q = keyOf r := by
  intro q hq
  have hold : q ∈ st.found →
      ∃ t ∈ (flatStep dice st x).out, ∃ r ∈ rotations t, q = keyOf r := by
    intro hq'
    obtain ⟨t, ht, r, hr, e⟩ := h q hq'
    exact ⟨t, flatStep_out_mono dice st x t ht, r, hr, e⟩
  unfold flatStep reportPure at hq
  by_cases hp : Passes dice x
  · rw [if_pos hp] at hq
    by_cases hk : quadKey x.1 x.2.1 x.2.2.1 x.2.2.2 ∈ st.found
    · rw [if_pos hk] at hq; exact hold hq
    · rw [if_neg hk] at hq
      simp only [] at hq
      rw [mem_foundInsert, mem_foundInsert, mem_foundInsert, List.mem_cons] at hq
      have hx : x ∈ (flatStep dice st x).out := flatStep_self_mem dice st x hp hk
      rcases hq with e | e | e | e | hq
      · exact ⟨x, hx, (x.2.2.2, x.1, x.2.1, x.2.2.1), by simp [rotations], e⟩
      · exact ⟨x, hx, (x.2.2.1, x.2.2.2, x.1, x.2.1), by simp [rotations], e⟩
      · exact ⟨x, hx, (x.2.1, x.2.2.1, x.2.2.2, x.1), by simp [rotations], e⟩
      · exact ⟨x, hx, (x.1, x.2.1, x.2.2.1, x.2.2.2), by simp [rotations], e⟩
      · exact hold hq
  · rw [if_neg hp] at hq; exact hold hq

theorem foldl_found_from_out (dice : List Die) (l : List (Nat × Nat × Nat × Nat))
    (st : SearchState)
    (h : ∀ q ∈ st.found, ∃ t ∈ st.out, ∃ r ∈ rotations t, q = keyOf r) :
    ∀ q ∈ (l.foldl (flatStep dice) st).found,
      ∃ t ∈ (l.foldl (flatStep dice) st).out, ∃ r ∈ rotations t, q = keyOf r := by
  induction l generalizing st with
  | nil => exact h
  | cons x xs ih => rw [List.foldl_cons]; exact ih _ (flatStep_found_from_out dice st x h)

/-- A tuple that passes the filters is printed when no tuple printed before its visit has a
rotation with the same key. -/
theorem reported_of_fresh_key (dice : List Die) (t : Nat × Nat × Nat × Nat)
    (ht : t ∈ allTuples dice.length) (hp : Passes dice t)
    (hfresh : ∀ s r, s ∈ allTuples dice.length → visitedBefore s t → Passes dice s →
      r ∈ rotations s → keyOf r = keyOf t → s ∉ (flatSearch dice).out) :
    t ∈ (flatSearch dice).out := by
  obtain ⟨l1, l2, hl⟩ := List.mem_iff_append.1 ht
  have hpw := allTuples_pairwise dice.length
  rw [hl, List.pairwise_append] at hpw
  obtain ⟨_, _, hbefore⟩ := hpw
  have hrun : flatSearch dice
      = l2.foldl (flatStep dice) (flatStep dice
          (l1.foldl (flatStep dice) { found := [], out := [] }) t) := by
    unfold flatSearch
    rw [hl, List.foldl_append, List.foldl_cons]
  have hinv1 : SearchInv dice (l1.foldl (flatStep dice) { found := [], out := [] }) :=
    foldl_inv dice l1 _ ⟨by simp, by simp, List.Pairwise.nil⟩
  have hkey : keyOf t ∉ (l1.foldl (flatStep dice) { found := [], out := [] }).found := by
    intro hin
    obtain ⟨s, hs, r, hr, e⟩ := foldl_found_from_out dice l1 _ (by simp) (keyOf t) hin
    have hs1 : s ∈ l1 := by
      rcases foldl_out_subset dice l1 _ s hs with h' | h'
      · simp at h'
      · exact h'
    have hsall : s ∈ allTuples dice.length := by
      rw [hl]; exact List.mem_append_left _ hs1
    have hsout : s ∈ (flatSearch dice).out := by
      rw [hrun]
      exact foldl_out_mono dice l2 _ s (flatStep_out_mono dice _ t s hs)
    exact hfresh s r hsall (hbefore s hs1 t (List.mem_cons_self _ _)) (hinv1.1 s hs) hr
      e.symm hsout
  rw [hrun]
  exact foldl_out_mono dice l2 _ t (flatStep_self_mem dice _ t hp hkey)

set_option maxRecDepth 100000 in
theorem tuple64_facts :
    Passes (generatedList.map dieOf) (64, 58, 91, 72)
      ∧ Passes (generatedList.map dieOf) (58, 79, 72, 64)
      ∧ ∀ y, y < 64 → Passes (generatedList.map dieOf) (64, y, 91, 72) → y = 58 := by
  decide!

set_option maxRecDepth 100000 in
theorem tuple64_faces :
    (dieAt (generatedList.map dieOf) 64).v = [0, 1, 1, 2, 2, 2]
      ∧ (dieAt (generatedList.map dieOf) 58).v = [1, 1, 1, 1, 2, 2]
      ∧ (dieAt (generatedList.map dieOf) 91).v = [0, 1, 1, 1, 2, 5]
      ∧ (dieAt (generatedList.map dieOf) 72).v = [0, 0, 0, 3, 3, 3] := by
  decide!

/-- C14 fails on `main`: the tuple `(64,58,91,72)` (faces `0 1 1 2 2 2`, `1 1 1 1 2 2`,
`0 1 1 1 2 5`, `0 0 0 3 3 3`) is printed although its rotation `(58,91,72,64)` is visited
before it and `a = 64` is not the smallest index: the rotation was skipped, because the
passing tuple `(58,79,72,64)`, visited earlier, has the same `Quadruple` key. -/
theorem printed_not_first :
    ∃ st, main = .ok st
      ∧ (64, 58, 91, 72) ∈ st.out
      ∧ (58, 91, 72, 64) ∈ rotations (64, 58, 91, 72)
      ∧ visitedBefore (58, 91, 72, 64) (64, 58, 91, 72)
      ∧ (58, 91, 72, 64) ∉ st.out
      ∧ (dieAt mainDiceList 64).v = [0, 1, 1, 2, 2, 2]
      ∧ (dieAt mainDiceList 58).v = [1, 1, 1, 1, 2, 2]
      ∧ (dieAt mainDiceList 91).v = [0, 1, 1, 1, 2, 5]
      ∧ (dieAt mainDiceList 72).v = [0, 0, 0, 3, 3, 3] := by
  refine ⟨flatSearch mainDiceList, main_eq, ?_⟩
  have hlen := mainDiceList_length
  have hmem : ∀ t : Nat × Nat × Nat × Nat,
      t.1 < 924 → t.2.1 < 924 → t.2.2.1 < 924 → t.2.2.2 < 924 →
      t ∈ allTuples mainDiceList.length := by
    intro t h1 h2 h3 h4
    rw [mem_allTuples, mainDiceList_length]
    exact ⟨h1, h2, h3, h4⟩
  have hbound : ∀ t : Nat × Nat × Nat × Nat, t ∈ allTuples mainDiceList.length →
      t.1 < 924 ∧ t.2.1 < 924 ∧ t.2.2.1 < 924 ∧ t.2.2.2 < 924 := by
    intro t ht
    rw [mem_allTuples, mainDiceList_length] at ht
    exact ht
  rw [mainDiceList_eq] at hmem hbound ⊢
  obtain ⟨p0, p1, p2⟩ := tuple64_facts
  obtain ⟨f0, f1, f2, f3⟩ := tuple64_faces
  have hskip : (58, 91, 72, 64) ∉ (flatSearch (generatedList.map dieOf)).out :=
    not_reported_of_earlier_key _ (58, 91, 72, 64) (58, 79, 72, 64)
      (hmem _ (by decide) (by decide) (by decide) (by decide))
      (hmem _ (by decide) (by decide) (by decide) (by decide))
      (by unfold visitedBefore; decide) p1 rfl
  refine ⟨?_, by simp [rotations], by unfold visitedBefore; decide, hskip, f0, f1, f2, f3⟩
  apply reported_of_fresh_key _ _ (hmem _ (by decide) (by decide) (by decide) (by decide)) p0
  intro s r hs hv hps hr hk hout
  obtain ⟨b1, b2, b3, b4⟩ := hbound s hs
  have hpr := Passes_of_mem_rotations _ s r hps hr
  have hsr := mem_rotations_symm s r hr
  obtain ⟨r1, r2, r3, r4⟩ := r
  obtain ⟨s1, s2, s3, s4⟩ := s
  simp only [rotations, List.mem_cons, List.mem_singleton, List.not_mem_nil, or_false,
    Prod.mk.injEq] at hr
  have hrb : r1 < 924 ∧ r2 < 924 ∧ r3 < 924 ∧ r4 < 924 := by
    simp only at b1 b2 b3 b4
    rcases hr with ⟨rfl, rfl, rfl, rfl⟩ | ⟨rfl, rfl, rfl, rfl⟩ | ⟨rfl, rfl, rfl, rfl⟩
      | ⟨rfl, rfl, rfl, rfl⟩ <;> exact ⟨by assumption, by assumption, by assumption,
        by assumption⟩
  have hinj := quadKey_inj r1 r2 r3 r4 64 58 91 72 (by omega) (by omega) (by omega)
    (by decide) (by decide) (by decide) hk
  obtain ⟨rfl, rfl, rfl⟩ := hinj
  simp only [rotations, List.mem_cons, List.mem_singleton, List.not_mem_nil, or_false,
    Prod.mk.injEq] at hsr
  unfold visitedBefore at hv
  simp only at hv
  rcases hsr with ⟨rfl, rfl, rfl, rfl⟩ | ⟨rfl, rfl, rfl, rfl⟩ | ⟨rfl, rfl, rfl, rfl⟩
    | ⟨rfl, rfl, rfl, rfl⟩
  · have hy : s2 < 58 := by omega
    have := p2 s2 (by omega) hpr
    omega
  · have hy : s1 < 64 := by omega
    have := p2 s1 hy hpr
    subst this
    exact hskip hout
  · omega
  · omega

end Efrons
